import Mathlib

/-!
Shallow embedding of the `lemma-is` Icelandic lemmatization engine
(`src/postgres/icelandic_fts.c`) and proofs about its specification.

Modelling conventions:
* The dictionary file is a byte buffer `List Nat` (each element one byte,
  values < 256 in any real file; arithmetic is over `Nat`).
* C reads of memory inside the buffer are modelled with `byteAt`/`u32At`
  (reads past the end of the list yield `0`, matching a total embedding);
  the loader's header reads additionally carry an explicit out-of-bounds
  outcome, because the C loader dereferences the header before any size
  check, which is undefined behaviour on a short buffer.
* Machine integers are `Nat`; the source only ever widens `uint32` values
  into `Size` (64-bit) arithmetic at the places we model, so no wrap-around
  is observable in the modelled region arithmetic for real file sizes.
-/

/-- One byte of the buffer; a read past the end of the allocation is
modelled as `0` (total embedding of the C dereference). -/
def byteAt (data : List Nat) (i : Nat) : Nat :=
  data.getD i 0

/-- Little-endian 32-bit load at byte offset `i`, as in `LEMMA_IS_LE32(*(uint32*)(data+i))`. -/
def u32At (data : List Nat) (i : Nat) : Nat :=
  byteAt data i + 256 * byteAt data (i + 1) + 65536 * byteAt data (i + 2) +
    16777216 * byteAt data (i + 3)

/-- A header load with its footprint made explicit: `none` models the C
loader dereferencing bytes past the end of the `palloc(size)` allocation. -/
def u32HeaderRead (data : List Nat) (i : Nat) : Option Nat :=
  if i + 4 ≤ data.length then some (u32At data i) else none

/-- Align up to a multiple of 4: the C `(offset + 3) & ~3`. -/
def pad4 (n : Nat) : Nat :=
  (n + 3) / 4 * 4

/-- The loaded dictionary (`struct LemmaIsBinary`): the raw buffer plus the
header counts and the byte offset of each region (the C struct stores
pointers `data + offset`; we store the offsets). -/
structure LemmaIsBinary where
  data : List Nat
  version : Nat
  stringPoolSize : Nat
  lemmaCount : Nat
  wordCount : Nat
  entryCount : Nat
  bigramCount : Nat
  stringPool : Nat
  lemmaOffsets : Nat
  lemmaLengths : Nat
  wordOffsets : Nat
  wordLengths : Nat
  entryOffsets : Nat
  entries : Nat
  bigramW1Offsets : Nat
  bigramW1Lengths : Nat
  bigramW2Offsets : Nat
  bigramW2Lengths : Nat
  bigramFreqs : Nat
deriving DecidableEq, Repr

/-- Total buffer size (the C `bin->size`). -/
def LemmaIsBinary.size (bin : LemmaIsBinary) : Nat :=
  bin.data.length

/-- Result of `lemma_is_load_binary`: either a fully constructed dictionary
or one of the `ereport` error exits; `oobHeaderRead` marks the loader
dereferencing header bytes that lie past the end of the buffer (undefined
behaviour in the C source, made explicit here). -/
inductive LoadResult where
  | ok (bin : LemmaIsBinary)
  | badMagic
  | badVersion
  | corruptStringPool
  | corruptEntries
  | corruptBigrams
  | oobHeaderRead
deriving DecidableEq, Repr

/-- Embedding of `lemma_is_load_binary` from the point where the file bytes
are in memory (line 259 on): magic check, version check, then the region
offset arithmetic with its bounds checks, mirroring the source order. -/
def lemma_is_load_binary (data : List Nat) : LoadResult :=
  match u32HeaderRead data 0 with
  | none => .oobHeaderRead
  | some magic =>
    if magic ≠ 0x4C454D41 then .badMagic else
    match u32HeaderRead data 4 with
    | none => .oobHeaderRead
    | some version =>
      if version ≠ 1 ∧ version ≠ 2 then .badVersion else
      match u32HeaderRead data 8, u32HeaderRead data 12, u32HeaderRead data 16,
            u32HeaderRead data 20, u32HeaderRead data 24 with
      | some stringPoolSize, some lemmaCount, some wordCount,
        some entryCount, some bigramCount =>
        let size := data.length
        if 32 + stringPoolSize > size then .corruptStringPool else
        let spOff := 32
        let lemmaOffsetsOff := spOff + stringPoolSize
        let lemmaLengthsOff := lemmaOffsetsOff + lemmaCount * 4
        let wordOffsetsOff := pad4 (lemmaLengthsOff + lemmaCount)
        let wordLengthsOff := wordOffsetsOff + wordCount * 4
        let entryOffsetsOff := pad4 (wordLengthsOff + wordCount)
        let entriesOff := entryOffsetsOff + (wordCount + 1) * 4
        if entriesOff + entryCount * 4 > size then .corruptEntries else
        let afterEntries := pad4 (entriesOff + entryCount * 4)
        if 0 < bigramCount then
          let bigramW1OffsetsOff := afterEntries
          let bigramW1LengthsOff := bigramW1OffsetsOff + bigramCount * 4
          let bigramW2OffsetsOff := pad4 (bigramW1LengthsOff + bigramCount)
          let bigramW2LengthsOff := bigramW2OffsetsOff + bigramCount * 4
          let bigramFreqsOff := pad4 (bigramW2LengthsOff + bigramCount)
          let bigramEnd := bigramFreqsOff + bigramCount * 4
          if bigramEnd > size then .corruptBigrams
          else .ok {
            data := data, version := version,
            stringPoolSize := stringPoolSize, lemmaCount := lemmaCount,
            wordCount := wordCount, entryCount := entryCount,
            bigramCount := bigramCount,
            stringPool := spOff, lemmaOffsets := lemmaOffsetsOff,
            lemmaLengths := lemmaLengthsOff, wordOffsets := wordOffsetsOff,
            wordLengths := wordLengthsOff, entryOffsets := entryOffsetsOff,
            entries := entriesOff,
            bigramW1Offsets := bigramW1OffsetsOff,
            bigramW1Lengths := bigramW1LengthsOff,
            bigramW2Offsets := bigramW2OffsetsOff,
            bigramW2Lengths := bigramW2LengthsOff,
            bigramFreqs := bigramFreqsOff }
        else .ok {
          data := data, version := version,
          stringPoolSize := stringPoolSize, lemmaCount := lemmaCount,
          wordCount := wordCount, entryCount := entryCount,
          bigramCount := bigramCount,
          stringPool := spOff, lemmaOffsets := lemmaOffsetsOff,
          lemmaLengths := lemmaLengthsOff, wordOffsets := wordOffsetsOff,
          wordLengths := wordLengthsOff, entryOffsets := entryOffsetsOff,
          entries := entriesOff,
          bigramW1Offsets := 0, bigramW1Lengths := 0,
          bigramW2Offsets := 0, bigramW2Lengths := 0, bigramFreqs := 0 }
      | _, _, _, _, _ => .oobHeaderRead

/-! ## Byte-string comparison and binary search (`lemma_is_compare_word`,
`lemma_is_find_word`, `lemma_is_compare_bigram`, `lemma_is_find_bigram`,
`lemma_is_bigram_freq`) -/

/-- Sign-exact model of the comparison done by `lemma_is_compare_word`:
`memcmp` over the first `min(len) ` bytes (first differing byte decides),
then the length tie-break `(int) stored_len - query_len`. The first
argument is the stored entry's bytes, the second the query's bytes. -/
def wordCmp : List Nat → List Nat → Int
  | [], [] => 0
  | [], _ :: q => -((q.length : Int) + 1)
  | _ :: s, [] => (s.length : Int) + 1
  | a :: s, b :: q => if a = b then wordCmp s q else (a : Int) - (b : Int)

/-- The byte-string view of word index entry `idx`:
`stringPool + wordOffsets[idx]`, `wordLengths[idx]` bytes. -/
def wordKey (bin : LemmaIsBinary) (idx : Nat) : List Nat :=
  let offset := u32At bin.data (bin.wordOffsets + 4 * idx)
  let len := byteAt bin.data (bin.wordLengths + idx)
  (List.range len).map fun k => byteAt bin.data (bin.stringPool + offset + k)

/-- Embedding of `lemma_is_compare_word bin idx word word_len`. -/
def lemma_is_compare_word (bin : LemmaIsBinary) (idx : Nat) (word : List Nat) : Int :=
  wordCmp (wordKey bin idx) word

/-- The shared binary-search loop of `lemma_is_find_word` /
`lemma_is_find_bigram`: `int` left/right bounds, `mid = (left+right) >> 1`
(arithmetic shift, i.e. floor division), comparator result decides; `-1`
when the window empties. -/
def lemma_is_find_loop (cmp : Int → Int) (left right : Int) : Int :=
  if _h : left ≤ right then
    let mid := (left + right) / 2
    if cmp mid = 0 then mid
    else if cmp mid < 0 then lemma_is_find_loop cmp (mid + 1) right
    else lemma_is_find_loop cmp left (mid - 1)
  else -1
termination_by (right + 1 - left).toNat
decreasing_by all_goals (simp only [mid] at *; omega)

/-- Embedding of `lemma_is_find_word`: binary search over the word index,
returning the matching index or `-1`. -/
def lemma_is_find_word (bin : LemmaIsBinary) (word : List Nat) : Int :=
  lemma_is_find_loop (fun mid => lemma_is_compare_word bin mid.toNat word)
    0 ((bin.wordCount : Int) - 1)

/-- The first-word byte-string view of bigram index entry `idx`. -/
def bigramW1Key (bin : LemmaIsBinary) (idx : Nat) : List Nat :=
  let offset := u32At bin.data (bin.bigramW1Offsets + 4 * idx)
  let len := byteAt bin.data (bin.bigramW1Lengths + idx)
  (List.range len).map fun k => byteAt bin.data (bin.stringPool + offset + k)

/-- The second-word byte-string view of bigram index entry `idx`. -/
def bigramW2Key (bin : LemmaIsBinary) (idx : Nat) : List Nat :=
  let offset := u32At bin.data (bin.bigramW2Offsets + 4 * idx)
  let len := byteAt bin.data (bin.bigramW2Lengths + idx)
  (List.range len).map fun k => byteAt bin.data (bin.stringPool + offset + k)

/-- Embedding of `lemma_is_compare_bigram`: compare on the first word
(bytes then length tie-break); only on equality compare the second word. -/
def lemma_is_compare_bigram (bin : LemmaIsBinary) (idx : Nat)
    (word1 word2 : List Nat) : Int :=
  let c := wordCmp (bigramW1Key bin idx) word1
  if c = 0 then wordCmp (bigramW2Key bin idx) word2 else c

/-- Embedding of `lemma_is_find_bigram`: `bigramCount == 0` short-circuits
to `-1` before any comparison; otherwise the same binary search over the
compound `(word1, word2)` key. -/
def lemma_is_find_bigram (bin : LemmaIsBinary) (word1 word2 : List Nat) : Int :=
  if bin.bigramCount = 0 then -1
  else
    lemma_is_find_loop (fun mid => lemma_is_compare_bigram bin mid.toNat word1 word2)
      0 ((bin.bigramCount : Int) - 1)

/-- Embedding of `lemma_is_bigram_freq`: `0` when the pair is not found,
otherwise `bigramFreqs[idx]`. -/
def lemma_is_bigram_freq (bin : LemmaIsBinary) (word1 word2 : List Nat) : Nat :=
  let idx := lemma_is_find_bigram bin word1 word2
  if idx < 0 then 0
  else u32At bin.data (bin.bigramFreqs + 4 * idx.toNat)

/-! ## Entry codec (`lemma_is_unpack_entry`, `lemma_is_pos_from_code`) -/

/-- Modelled from the spec: the closed 10-tag part-of-speech enum
`IcelandicPos` (`POS_NO` … `POS_UH`) is declared in the generated header
`icelandic_fts_data.h`, which is not under `src/`; the constructors are in
the order the codec's 0–9 mapping lists them, `NO` (noun) first. -/
inductive IcelandicPos where
  | NO | SO | LO | AO | FS | FN | ST | TO | GR | UH
deriving DecidableEq, Repr, BEq

/-- The integer value of a tag in the C enum (used by `1 << pos`). -/
def IcelandicPos.toCode : IcelandicPos → Nat
  | .NO => 0 | .SO => 1 | .LO => 2 | .AO => 3 | .FS => 4
  | .FN => 5 | .ST => 6 | .TO => 7 | .GR => 8 | .UH => 9

/-- A decoded morphological entry (`struct LemmaIsEntry`). -/
structure LemmaIsEntry where
  lemmaIdx : Nat
  posCode : Nat
  caseCode : Nat
  genderCode : Nat
  numberCode : Nat
deriving DecidableEq, Repr

/-- Embedding of `lemma_is_unpack_entry`: version-1 layout when
`bin->version == 1`, version-2 layout otherwise. -/
def lemma_is_unpack_entry (bin : LemmaIsBinary) (packed : Nat) : LemmaIsEntry :=
  if bin.version = 1 then
    { lemmaIdx := packed >>> 4, posCode := packed &&& 0xF,
      caseCode := 0, genderCode := 0, numberCode := 0 }
  else
    { lemmaIdx := packed >>> 10, posCode := packed &&& 0xF,
      caseCode := (packed >>> 4) &&& 0x7,
      genderCode := (packed >>> 7) &&& 0x3,
      numberCode := (packed >>> 9) &&& 0x1 }

/-- Embedding of `lemma_is_pos_from_code`: the fixed 10-entry switch;
every unlisted code falls to the `default:` case, `POS_NO`. -/
def lemma_is_pos_from_code (code : Nat) : IcelandicPos :=
  match code with
  | 0 => .NO | 1 => .SO | 2 => .LO | 3 => .AO | 4 => .FS
  | 5 => .FN | 6 => .ST | 7 => .TO | 8 => .GR | 9 => .UH
  | _ => .NO

/-! ## Lemma string access and candidate resolution -/

/-- Embedding of `lemma_is_get_lemma`: read `(lemmaOffsets[idx],
lemmaLengths[idx])` and copy that many bytes out of the string pool
(`pnstrdup(base, len)`; pool strings are taken to contain no NUL byte, so
exactly `len` bytes are copied). -/
def lemma_is_get_lemma (bin : LemmaIsBinary) (idx : Nat) : List Nat :=
  let offset := u32At bin.data (bin.lemmaOffsets + 4 * idx)
  let len := byteAt bin.data (bin.lemmaLengths + idx)
  (List.range len).map fun k => byteAt bin.data (bin.stringPool + offset + k)

/-- Modelled from the spec: `lowerstr` (PostgreSQL tsearch locale
lowercasing, not part of this repository) normalizes the input to
lowercase. Modelled directly on UTF-8 bytes: ASCII uppercase letters and
the Latin-1 uppercase block (two-byte sequences `0xC3 0x80`–`0xC3 0x9E`,
excluding the multiplication sign `0xC3 0x97`), which covers the Icelandic
alphabet; all other bytes are kept unchanged. -/
def lowerBytes : List Nat → List Nat
  | [] => []
  | [b] => if 0x41 ≤ b ∧ b ≤ 0x5A then [b + 32] else [b]
  | b :: b2 :: rest =>
    if 0x41 ≤ b ∧ b ≤ 0x5A then (b + 32) :: lowerBytes (b2 :: rest)
    else if b = 0xC3 ∧ 0x80 ≤ b2 ∧ b2 ≤ 0x9E ∧ b2 ≠ 0x97 then
      b :: (b2 + 32) :: lowerBytes rest
    else b :: lowerBytes (b2 :: rest)

/-- A lemma candidate (`struct LemmaCandidate`); the C `lemma` field is
named `lemmaBytes` because `lemma` is a Lean keyword. -/
structure LemmaCandidate where
  lemmaBytes : List Nat
  pos : IcelandicPos
  caseCode : Nat
  genderCode : Nat
  numberCode : Nat
deriving DecidableEq, Repr, BEq

/-- The synthetic fallback candidate built by `lemma_is_get_candidates`
for unknown words and empty entry lists: the lowercased input itself,
`POS_NO`, all morphology codes zero. -/
def syntheticCandidate (lower : List Nat) : LemmaCandidate :=
  { lemmaBytes := lower, pos := .NO, caseCode := 0, genderCode := 0, numberCode := 0 }

/-- Embedding of `lemma_is_get_candidates`. The C loop index runs over
`int` casts of the `uint32` range bounds; it is modelled at `Nat`
granularity, faithful for ranges below `2^31` (any real file). The result
list stands for the C `(candidates, *out_count)` pair; the `end < start`
exit returns `NULL` with count 0, i.e. the empty list. -/
def lemma_is_get_candidates (bin : LemmaIsBinary) (word : List Nat) :
    List LemmaCandidate :=
  let lower := lowerBytes word
  let idx := lemma_is_find_word bin lower
  if idx < 0 then [syntheticCandidate lower]
  else
    let start := u32At bin.data (bin.entryOffsets + 4 * idx.toNat)
    let stop := u32At bin.data (bin.entryOffsets + 4 * (idx.toNat + 1))
    if stop < start then []
    else
      let cands := (List.range' start (stop - start)).foldl (fun acc i =>
        let packed := u32At bin.data (bin.entries + 4 * i)
        let entry := lemma_is_unpack_entry bin packed
        let pos := lemma_is_pos_from_code entry.posCode
        let lm := lemma_is_get_lemma bin entry.lemmaIdx
        if acc.any (fun c => c.pos == pos && c.lemmaBytes == lm) then acc
        else acc ++ [{ lemmaBytes := lm, pos := pos, caseCode := entry.caseCode,
                       genderCode := entry.genderCode, numberCode := entry.numberCode }]) []
      if cands = [] then [syntheticCandidate lower] else cands

/-- Embedding of the dictionary part of `icelandic_lexize` (lines 733–793,
after the one-time load): lowercase, look the word up, and return the
deduplicated lemma strings; `none` models the `PG_RETURN_NULL()` exit taken
when `end < start`. -/
def icelandic_lexize (bin : LemmaIsBinary) (word : List Nat) :
    Option (List (List Nat)) :=
  let txt := lowerBytes word
  let idx := lemma_is_find_word bin txt
  if idx < 0 then some [txt]
  else
    let start := u32At bin.data (bin.entryOffsets + 4 * idx.toNat)
    let stop := u32At bin.data (bin.entryOffsets + 4 * (idx.toNat + 1))
    if stop < start then none
    else
      let ids := (List.range' start (stop - start)).foldl (fun acc i =>
        let entry := lemma_is_unpack_entry bin (u32At bin.data (bin.entries + 4 * i))
        if acc.contains entry.lemmaIdx then acc else acc ++ [entry.lemmaIdx]) []
      if ids = [] then some [txt]
      else some (ids.map (lemma_is_get_lemma bin))

/-! ## Bigram disambiguation (`lemma_is_disambiguate_bigram`)

The C scores are `double`s built from `log((double) freq + 1.0)` and
compared/normalized with `exp`. Floating point is not embedded exactly;
instead the two transcendental maps are parameters: `logf f` stands for
`log(f + 1)` at frequency `f` (only ever applied to `freq > 0`) and
`expf` for `exp`. Every property proved below holds for arbitrary such
parameters, so in particular for the real `log`/`exp`. -/

/-- Output block of `lemma_is_disambiguate_bigram` (the four `out_*`
parameters). -/
structure DisambigOut where
  outLemma : List Nat
  outPos : IcelandicPos
  confidence : ℚ
  byBigram : Bool
deriving DecidableEq, Repr

/-- Score of one candidate (the per-`i` body of the scoring loop): sum the
weights of matching bigrams with every previous-token candidate, then with
every next-token candidate; a zero frequency contributes nothing. A `NULL`
neighbor array is the empty list. -/
def candScore (logf : Nat → ℚ) (bin : LemmaIsBinary)
    (prev next : List LemmaCandidate) (c : LemmaCandidate) : ℚ :=
  let s1 := prev.foldl (fun acc p =>
    let freq := lemma_is_bigram_freq bin p.lemmaBytes c.lemmaBytes
    if 0 < freq then acc + logf freq else acc) 0
  next.foldl (fun acc n =>
    let freq := lemma_is_bigram_freq bin c.lemmaBytes n.lemmaBytes
    if 0 < freq then acc + logf freq else acc) s1

/-- The running-best selection of the scoring loop: `best_score` starts at
`0.0`, `best_idx` at `0`, and only a strictly greater score replaces the
running best. -/
def bestLoop : List ℚ → Nat → ℚ → Nat → ℚ × Nat
  | [], _, bs, bi => (bs, bi)
  | s :: rest, i, bs, bi =>
    if bs < s then bestLoop rest (i + 1) s i else bestLoop rest (i + 1) bs bi

/-- Embedding of `lemma_is_disambiguate_bigram`: `none` models the
`count <= 0` early `return false` (outputs unset); the C computes the
scores and the running best in one loop over `i`, modelled as the score
list followed by `bestLoop` over it in the same order. -/
def lemma_is_disambiguate_bigram (logf : Nat → ℚ) (expf : ℚ → ℚ)
    (bin : LemmaIsBinary) (candidates prev next : List LemmaCandidate) :
    Option DisambigOut :=
  if candidates.length = 0 then none
  else
    let scores := candidates.map (candScore logf bin prev next)
    let best := bestLoop scores 0 0 0
    let confBy : ℚ × Bool :=
      if 0 < best.1 then
        let total := scores.foldl (fun t s => t + expf s) 0
        (if 0 < total then expf best.1 / total else 1/2, true)
      else (0, false)
    let chosen := candidates.getD best.2 (syntheticCandidate [])
    some { outLemma := chosen.lemmaBytes, outPos := chosen.pos,
           confidence := confBy.1, byBigram := confBy.2 }

/-! ## Tokenizer (`icelandic_tokenize_words`)

The C scans UTF-8 bytes, decoding one codepoint per step with
`pg_mblen`/`utf8_to_unicode`; for valid UTF-8 input that is exactly
codepoint-at-a-time iteration, so the scan is modelled over the list of
codepoints. -/

/-- Modelled from the spec: ICU's `u_isalpha` (Unicode alphabetic
property; ICU is not part of this repository), restricted to the Latin
repertoire: ASCII letters and the Latin-1/Latin-Extended letter ranges,
which cover Icelandic. Joiners, digits, spaces and punctuation are
non-alphabetic, as under ICU. -/
def icelandic_is_alpha (c : Nat) : Bool :=
  (0x41 ≤ c && c ≤ 0x5A) || (0x61 ≤ c && c ≤ 0x7A) ||
  (0xC0 ≤ c && c ≤ 0xD6) || (0xD8 ≤ c && c ≤ 0xF6) ||
  (0xF8 ≤ c && c ≤ 0x24F)

/-- Embedding of `icelandic_is_word_joiner`: apostrophe, right single
quote, hyphen, en dash, em dash. -/
def icelandic_is_word_joiner (c : Nat) : Bool :=
  c == 0x27 || c == 0x2019 || c == 0x2D || c == 0x2013 || c == 0x2014

/-- The inner token-extension loop: starting after the initial alphabetic
codepoint, consume alphabetic codepoints; consume a joiner only when the
codepoint immediately after it is alphabetic (one-codepoint lookahead, and
a joiner at end of input is not consumed); anything else ends the token.
Returns the consumed continuation and the unconsumed rest. -/
def takeWordRun : List Nat → List Nat × List Nat
  | [] => ([], [])
  | c :: rest =>
    if icelandic_is_alpha c then
      let tr := takeWordRun rest
      (c :: tr.1, tr.2)
    else if icelandic_is_word_joiner c then
      match rest with
      | [] => ([], [c])
      | d :: _ =>
        if icelandic_is_alpha d then
          let tr := takeWordRun rest
          (c :: tr.1, tr.2)
        else ([], c :: rest)
    else ([], c :: rest)

/-- Embedding of the outer loop of `icelandic_tokenize_words`: an
alphabetic codepoint opens a token extended by `takeWordRun`; any other
codepoint is skipped. -/
def icelandic_tokenize_words (input : List Nat) : List (List Nat) :=
  match input with
  | [] => []
  | c :: rest =>
    if icelandic_is_alpha c then
      let tr := takeWordRun rest
      (c :: tr.1) :: icelandic_tokenize_words tr.2
    else icelandic_tokenize_words rest
termination_by input.length
decreasing_by
  · refine Nat.lt_succ_of_le ?_
    have key : ∀ l : List Nat, (takeWordRun l).2.length ≤ l.length := by
      intro l
      induction l with
      | nil => simp [takeWordRun]
      | cons c rest ih =>
        simp only [takeWordRun]
        split
        · simpa using Nat.le_trans ih (Nat.le_succ _)
        · split
          · cases rest with
            | nil => simp
            | cons d tl =>
              simp only
              split
              · simpa using Nat.le_trans ih (Nat.le_succ _)
              · simp
          · simp
    exact key _
  · simp

/-- Bridge to Lean strings for the spec's concrete examples: a `String` is
its list of codepoints; tokens are re-assembled into `String`s. -/
def tokenizeString (s : String) : List String :=
  (icelandic_tokenize_words (s.data.map Char.toNat)).map
    fun t => String.mk (t.map Char.ofNat)

/-- Well-formedness of a token's continuation (everything after its first
codepoint): alphabetic codepoints may appear anywhere; a joiner must be
immediately followed by an alphabetic codepoint (hence never ends the
token); nothing else may appear. -/
def goodTokRun : List Nat → Bool
  | [] => true
  | c :: rest =>
    if icelandic_is_alpha c then goodTokRun rest
    else if icelandic_is_word_joiner c then
      match rest with
      | [] => false
      | d :: _ => icelandic_is_alpha d && goodTokRun rest
    else false

/-- A well-formed token: non-empty, starts with an alphabetic codepoint,
and its continuation satisfies `goodTokRun`. -/
def goodTok : List Nat → Bool
  | [] => false
  | c :: rest => icelandic_is_alpha c && goodTokRun rest

/-! ## Stopword filter (`lemma_is_stopword_simple`,
`lemma_is_contextual_stopword`)

The two tables live in the generated header `icelandic_fts_data.h`, which
is not under `src/`; the filter logic is embedded parametrically over the
table contents. C stdlib `bsearch` over a sorted table is exact-match
lookup; it is modelled from the spec as `List.find?` on the table. -/

/-- A contextual stopword table row (`struct ContextualStopwordEntry`):
a lemma and a bitmask over the part-of-speech enum values. -/
structure ContextualStopwordEntry where
  word : List Nat
  pos_mask : Nat
deriving DecidableEq, Repr

/-- Embedding of `lemma_is_stopword_simple`: an empty table rejects
immediately; otherwise `bsearch` (exact-match lookup) over the plain
stopword list. -/
def lemma_is_stopword_simple (stopwords : List (List Nat)) (lm : List Nat) : Bool :=
  if stopwords.length = 0 then false
  else (stopwords.find? (fun w => w == lm)).isSome

/-- Embedding of `lemma_is_contextual_stopword`: an empty contextual table
falls back to the plain list; a contextual hit tests `pos` against the
row's bitmask (`pos_mask & (1 << pos)`); a contextual miss falls back to
the plain list. -/
def lemma_is_contextual_stopword (contextual : List ContextualStopwordEntry)
    (stopwords : List (List Nat)) (lm : List Nat) (pos : IcelandicPos) : Bool :=
  if contextual.length = 0 then lemma_is_stopword_simple stopwords lm
  else
    match contextual.find? (fun e => e.word == lm) with
    | none => lemma_is_stopword_simple stopwords lm
    | some entry => (entry.pos_mask &&& (1 <<< pos.toCode)) != 0

/-- The per-token surviving-lemma computation shared by
`icelandic_fts_lemmas` and `icelandic_fts_query` (disambiguate, consult
the stopword filter only for the disambiguated lemma and only when
`disambig_by_bigram` is set, then deduplicate lemmas first-seen, skipping
the filtered lemma). -/
def tokenSurvivingLemmas (logf : Nat → ℚ) (expf : ℚ → ℚ)
    (contextual : List ContextualStopwordEntry) (stopwords : List (List Nat))
    (bin : LemmaIsBinary) (candidates prev next : List LemmaCandidate) :
    List (List Nat) :=
  let dis := lemma_is_disambiguate_bigram logf expf bin candidates prev next
  let disLemma : Option (List Nat) := dis.map (fun d => d.outLemma)
  let filterDisambiguated : Bool :=
    match dis with
    | some d => d.byBigram &&
        lemma_is_contextual_stopword contextual stopwords d.outLemma d.outPos
    | none => false
  candidates.foldl (fun acc c =>
    if acc.any (fun l => l == c.lemmaBytes) then acc
    else if filterDisambiguated && (disLemma == some c.lemmaBytes) then acc
    else acc ++ [c.lemmaBytes]) []

/-- First-seen-order deduplication of a list of lemmas (the spec-side
description of the dedup loop, with no stopword filtering). -/
def dedupFirstSeen (lemmas : List (List Nat)) : List (List Nat) :=
  lemmas.foldl (fun acc l => if acc.any (fun x => x == l) then acc else acc ++ [l]) []

/-! ## Query expression assembly (`icelandic_fts_query`, lines 957–1029)

The assembly loop consumes the per-token surviving lemma lists
(`token_lemmas`); strings are modelled as `List Char` (the C appends the
lemmas' bytes; byte sequences and codepoint sequences are in UTF-8
bijection, and the separators are ASCII). -/

/-- The inner `for (j ...)` loop: `" | "` before every lemma except the
first, then the lemma. -/
def joinPipes (g : List (List Char)) : List Char :=
  (List.enum g).foldl (fun acc jl =>
    acc ++ (if 0 < jl.1 then " | ".data else []) ++ jl.2) []

/-- One iteration of the conjunct-assembly loop of `icelandic_fts_query`:
state is `(query, first_group)`; a token with no surviving lemmas is
skipped before the flag is cleared; `" & "` is appended before every
conjunct except the first; a conjunct with more than one lemma is
parenthesized. -/
def queryBuildStep (st : List Char × Bool) (g : List (List Char)) :
    List Char × Bool :=
  if g.length = 0 then st
  else
    let q1 := st.1 ++ (if st.2 then [] else " & ".data)
    let q2 := q1 ++ (if 1 < g.length then ['('] else [])
    let q3 := q2 ++ joinPipes g
    let q4 := q3 ++ (if 1 < g.length then [')'] else [])
    (q4, false)

/-- Embedding of the conjunct-assembly loop of `icelandic_fts_query`
(lines 957–1029): fold `queryBuildStep` over the per-token surviving
lemma lists, starting from the empty query with `first_group` set. -/
def icelandic_fts_query_build (groups : List (List (List Char))) : List Char :=
  (groups.foldl queryBuildStep ([], true)).1

/-- Spec-side separator join (`" & "` / `" | "` interleaving). -/
def sepJoin (sep : List Char) : List (List Char) → List Char
  | [] => []
  | [x] => x
  | x :: y :: rest => x ++ sep ++ sepJoin sep (y :: rest)

/-- Spec-side rendering of one conjunct: two or more lemmas are
parenthesized and `" | "`-joined; a single lemma is emitted bare. -/
def renderConjunct (g : List (List Char)) : List Char :=
  if 1 < g.length then '(' :: sepJoin " | ".data g ++ [')']
  else sepJoin " | ".data g

/-- Spec-side query string: drop empty lemma sets, render each conjunct,
join with `" & "`; zero conjuncts give the empty string. -/
def specQueryString (groups : List (List (List Char))) : List Char :=
  sepJoin " & ".data ((groups.filter (fun g => !g.isEmpty)).map renderConjunct)

/-! ## Checked (bounds-instrumented) post-load accessors

The loader's region checks bound the index *tables*; the *values* stored
in those tables (string-view offsets and lengths, entry `lemmaId`s,
entry-range bounds) are dereferenced after a successful load with no
per-value validation. The checked variants below perform the same reads
but return `none` as soon as a read would fall outside the buffer, making
each access's footprint explicit. -/

/-- A checked one-byte read: `none` when the byte lies outside the buffer. -/
def byteAtChecked (data : List Nat) (i : Nat) : Option Nat :=
  if i < data.length then some (byteAt data i) else none

/-- A checked 4-byte little-endian read. -/
def u32AtChecked (data : List Nat) (i : Nat) : Option Nat :=
  if i + 4 ≤ data.length then some (u32At data i) else none

/-- Checked variant of `lemma_is_get_lemma`: the same reads
(`lemmaOffsets[idx]`, `lemmaLengths[idx]`, then `len` pool bytes), each
bounds-checked against the buffer. -/
def lemma_is_get_lemma_checked (bin : LemmaIsBinary) (idx : Nat) :
    Option (List Nat) := do
  let offset ← u32AtChecked bin.data (bin.lemmaOffsets + 4 * idx)
  let len ← byteAtChecked bin.data (bin.lemmaLengths + idx)
  (List.range len).mapM fun k => byteAtChecked bin.data (bin.stringPool + offset + k)

/-- Checked variant of the entry-range reads of `lemma_is_get_candidates`
(lines 560–575): fetch the half-open range `entryOffsets[idx] ..
entryOffsets[idx+1]` and then every packed entry word in that range, each
read bounds-checked against the buffer. -/
def entryRangeReadsChecked (bin : LemmaIsBinary) (idx : Nat) :
    Option (List Nat) := do
  let start ← u32AtChecked bin.data (bin.entryOffsets + 4 * idx)
  let stop ← u32AtChecked bin.data (bin.entryOffsets + 4 * (idx + 1))
  if stop < start then some []
  else (List.range' start (stop - start)).mapM fun i =>
    u32AtChecked bin.data (bin.entries + 4 * i)

/-- The unstated per-value precondition for `lemma_is_get_lemma`'s
accesses at `idx`: the index is within the lemma table and the stored
string view lies within the string pool. -/
def lemmaViewInBounds (bin : LemmaIsBinary) (idx : Nat) : Prop :=
  idx < bin.lemmaCount ∧
  u32At bin.data (bin.lemmaOffsets + 4 * idx) +
    byteAt bin.data (bin.lemmaLengths + idx) ≤ bin.stringPoolSize

/-- The unstated per-value precondition for the entry-range accesses at
word `idx`: the index is within the word table and the stored range lies
within the entry table. -/
def entryRangeInBounds (bin : LemmaIsBinary) (idx : Nat) : Prop :=
  idx < bin.wordCount ∧
  u32At bin.data (bin.entryOffsets + 4 * idx) ≤ bin.entryCount ∧
  u32At bin.data (bin.entryOffsets + 4 * (idx + 1)) ≤ bin.entryCount

instance (bin : LemmaIsBinary) (idx : Nat) : Decidable (lemmaViewInBounds bin idx) := by
  unfold lemmaViewInBounds
  infer_instance

instance (bin : LemmaIsBinary) (idx : Nat) : Decidable (entryRangeInBounds bin idx) := by
  unfold entryRangeInBounds
  infer_instance

/-! ## Spec-side region layout -/

/-- The spec-side statement that some declared region of the file (as laid
out from the header counts: string pool, lemma offsets/lengths, word
offsets/lengths, entry-range offsets, entries, and — when present — the
five bigram blocks) extends past the end of the buffer. -/
def declaredRegionOverflow (data : List Nat) : Prop :=
  let size := data.length
  let sp := u32At data 8
  let lc := u32At data 12
  let wc := u32At data 16
  let ec := u32At data 20
  let bc := u32At data 24
  let spEnd := 32 + sp
  let lemmaOffEnd := spEnd + lc * 4
  let lemmaLenEnd := lemmaOffEnd + lc
  let wordOffEnd := pad4 lemmaLenEnd + wc * 4
  let wordLenEnd := wordOffEnd + wc
  let entryOffEnd := pad4 wordLenEnd + (wc + 1) * 4
  let entriesEnd := entryOffEnd + ec * 4
  let b1OffEnd := pad4 entriesEnd + bc * 4
  let b1LenEnd := b1OffEnd + bc
  let b2OffEnd := pad4 b1LenEnd + bc * 4
  let b2LenEnd := b2OffEnd + bc
  let freqEnd := pad4 b2LenEnd + bc * 4
  size < spEnd ∨ size < lemmaOffEnd ∨ size < lemmaLenEnd ∨ size < wordOffEnd ∨
  size < wordLenEnd ∨ size < entryOffEnd ∨ size < entriesEnd ∨
  (0 < bc ∧ (size < b1OffEnd ∨ size < b1LenEnd ∨ size < b2OffEnd ∨
             size < b2LenEnd ∨ size < freqEnd))

instance (data : List Nat) : Decidable (declaredRegionOverflow data) := by
  unfold declaredRegionOverflow
  infer_instance

/-- The word index is sorted strictly ascending under the stored-entry
comparator (byte-wise with length tie-break), as the format requires for
binary search. -/
def wordIndexSorted (bin : LemmaIsBinary) : Prop :=
  ∀ j, j < bin.wordCount → ∀ i, i < j →
    wordCmp (wordKey bin i) (wordKey bin j) < 0

/-- The bigram index is sorted strictly ascending under the compound
`(word1, word2)` comparator. -/
def bigramIndexSorted (bin : LemmaIsBinary) : Prop :=
  ∀ j, j < bin.bigramCount → ∀ i, i < j →
    lemma_is_compare_bigram bin i (bigramW1Key bin j) (bigramW2Key bin j) < 0

instance (bin : LemmaIsBinary) : Decidable (wordIndexSorted bin) := by
  unfold wordIndexSorted
  infer_instance

instance (bin : LemmaIsBinary) : Decidable (bigramIndexSorted bin) := by
  unfold bigramIndexSorted
  infer_instance

/-! ## Concrete dictionaries for witnesses and counterexamples -/

/-- Little-endian 4-byte encoding of a 32-bit value. -/
def le32 (n : Nat) : List Nat :=
  [n % 256, n / 256 % 256, n / 65536 % 256, n / 16777216 % 256]

/-- A well-formed 88-byte dictionary: pool `"ab"`; one lemma `"ab"`; two
words `"a"` (one entry, lemma 0, pos code 0) and `"b"` (empty entry
range); one bigram `("a","b")` with frequency 5. -/
def goodDictBytes : List Nat :=
  le32 0x4C454D41 ++ le32 1 ++ le32 2 ++ le32 1 ++ le32 2 ++ le32 1 ++ le32 1 ++ le32 0 ++
  [0x61, 0x62] ++
  le32 0 ++ [2] ++ [0] ++
  le32 0 ++ le32 1 ++ [1, 1] ++ [0, 0] ++
  le32 0 ++ le32 1 ++ le32 1 ++
  le32 0 ++
  le32 0 ++ [1] ++ [0, 0, 0] ++
  le32 1 ++ [1] ++ [0, 0, 0] ++
  le32 5

/-- The dictionary the loader builds from `goodDictBytes`. -/
def goodDictBin : LemmaIsBinary :=
  { data := goodDictBytes, version := 1, stringPoolSize := 2, lemmaCount := 1,
    wordCount := 2, entryCount := 1, bigramCount := 1,
    stringPool := 32, lemmaOffsets := 34, lemmaLengths := 38,
    wordOffsets := 40, wordLengths := 48, entryOffsets := 52, entries := 64,
    bigramW1Offsets := 68, bigramW1Lengths := 72, bigramW2Offsets := 76,
    bigramW2Lengths := 80, bigramFreqs := 84 }

/-- A 52-byte dictionary that loads successfully but stores an inverted
entry range for its only word `"a"`: `entryOffsets = [1, 0]`, so
`end < start` at index 0 (the loader never validates monotonicity). -/
def badRangeDictBytes : List Nat :=
  le32 0x4C454D41 ++ le32 1 ++ le32 1 ++ le32 0 ++ le32 1 ++ le32 0 ++ le32 0 ++ le32 0 ++
  [0x61] ++ [0, 0, 0] ++
  le32 0 ++ [1] ++ [0, 0, 0] ++
  le32 1 ++ le32 0

/-- The dictionary the loader builds from `badRangeDictBytes`. -/
def badRangeDictBin : LemmaIsBinary :=
  { data := badRangeDictBytes, version := 1, stringPoolSize := 1, lemmaCount := 0,
    wordCount := 1, entryCount := 0, bigramCount := 0,
    stringPool := 32, lemmaOffsets := 33, lemmaLengths := 33,
    wordOffsets := 36, wordLengths := 40, entryOffsets := 44, entries := 52,
    bigramW1Offsets := 0, bigramW1Lengths := 0, bigramW2Offsets := 0,
    bigramW2Lengths := 0, bigramFreqs := 0 }

/-- `badRangeDictBytes` with `entryOffsets = [0, 9999]` instead: it loads
successfully (`entryCount = 0` is consistent with the header, and the
loader never validates the stored range values), but fetching word 0's
entry range walks the entries array far past the buffer end. -/
def rangeOverDictBytes : List Nat :=
  le32 0x4C454D41 ++ le32 1 ++ le32 1 ++ le32 0 ++ le32 1 ++ le32 0 ++ le32 0 ++ le32 0 ++
  [0x61] ++ [0, 0, 0] ++
  le32 0 ++ [1] ++ [0, 0, 0] ++
  le32 0 ++ le32 9999

/-- The dictionary the loader builds from `rangeOverDictBytes`. -/
def rangeOverDictBin : LemmaIsBinary :=
  { data := rangeOverDictBytes, version := 1, stringPoolSize := 1, lemmaCount := 0,
    wordCount := 1, entryCount := 0, bigramCount := 0,
    stringPool := 32, lemmaOffsets := 33, lemmaLengths := 33,
    wordOffsets := 36, wordLengths := 40, entryOffsets := 44, entries := 52,
    bigramW1Offsets := 0, bigramW1Lengths := 0, bigramW2Offsets := 0,
    bigramW2Lengths := 0, bigramFreqs := 0 }

/-- `goodDictBytes` with the stored lemma-string offset replaced by 1000:
it loads successfully (the loader never validates stored string views),
but reading lemma 0 dereferences pool bytes far past the buffer end. -/
def oobLemmaDictBytes : List Nat :=
  le32 0x4C454D41 ++ le32 1 ++ le32 2 ++ le32 1 ++ le32 2 ++ le32 1 ++ le32 1 ++ le32 0 ++
  [0x61, 0x62] ++
  le32 1000 ++ [2] ++ [0] ++
  le32 0 ++ le32 1 ++ [1, 1] ++ [0, 0] ++
  le32 0 ++ le32 1 ++ le32 1 ++
  le32 0 ++
  le32 0 ++ [1] ++ [0, 0, 0] ++
  le32 1 ++ [1] ++ [0, 0, 0] ++
  le32 5

/-- The dictionary the loader builds from `oobLemmaDictBytes`. -/
def oobLemmaDictBin : LemmaIsBinary :=
  { data := oobLemmaDictBytes, version := 1, stringPoolSize := 2, lemmaCount := 1,
    wordCount := 2, entryCount := 1, bigramCount := 1,
    stringPool := 32, lemmaOffsets := 34, lemmaLengths := 38,
    wordOffsets := 40, wordLengths := 48, entryOffsets := 52, entries := 64,
    bigramW1Offsets := 68, bigramW1Lengths := 72, bigramW2Offsets := 76,
    bigramW2Lengths := 80, bigramFreqs := 84 }

/-! # Theorems -/

/-! ## Generic helper lemmas -/

theorem u32HeaderRead_of_le (data : List Nat) (i : Nat) (h : i + 4 ≤ data.length) :
    u32HeaderRead data i = some (u32At data i) := by
  simp [u32HeaderRead, h]

theorem u32HeaderRead_some (data : List Nat) (i v : Nat)
    (h : u32HeaderRead data i = some v) : v = u32At data i ∧ i + 4 ≤ data.length := by
  unfold u32HeaderRead at h
  split at h
  · exact ⟨(Option.some.injEq _ _).mp h |>.symm, by assumption⟩
  · exact absurd h (by simp)

theorem find_loop_sound (cmp : Int → Int) (left right : Int) :
    lemma_is_find_loop cmp left right = -1 ∨
    (left ≤ lemma_is_find_loop cmp left right ∧
     lemma_is_find_loop cmp left right ≤ right ∧
     cmp (lemma_is_find_loop cmp left right) = 0) := by
  induction left, right using lemma_is_find_loop.induct cmp with
  | case1 left right hle mid h0 =>
    rw [lemma_is_find_loop.eq_def, dif_pos hle]
    simp only [mid] at h0
    rw [if_pos h0]
    exact Or.inr ⟨by omega, by omega, h0⟩
  | case2 left right hle mid h0 hlt ih =>
    rw [lemma_is_find_loop.eq_def, dif_pos hle]
    simp only [mid] at h0 hlt ih
    rw [if_neg h0, if_pos hlt]
    rcases ih with h | ⟨h1, h2, h3⟩
    · exact Or.inl h
    · exact Or.inr ⟨by omega, h2, h3⟩
  | case3 left right hle mid h0 hlt ih =>
    rw [lemma_is_find_loop.eq_def, dif_pos hle]
    simp only [mid] at h0 hlt ih
    rw [if_neg h0, if_neg hlt]
    rcases ih with h | ⟨h1, h2, h3⟩
    · exact Or.inl h
    · exact Or.inr ⟨h1, by omega, h3⟩
  | case4 left right hle =>
    rw [lemma_is_find_loop.eq_def, dif_neg hle]
    exact Or.inl rfl

theorem find_loop_complete (cmp : Int → Int) (left right k : Int)
    (hlk : left ≤ k) (hkr : k ≤ right) (hk : cmp k = 0)
    (hlt : ∀ i, left ≤ i → i < k → cmp i < 0)
    (hgt : ∀ i, k < i → i ≤ right → 0 < cmp i) :
    lemma_is_find_loop cmp left right = k := by
  induction left, right using lemma_is_find_loop.induct cmp with
  | case1 left right hle mid h0 =>
    rw [lemma_is_find_loop.eq_def, dif_pos hle]
    simp only [mid] at h0
    rw [if_pos h0]
    by_contra hne
    rcases lt_or_gt_of_ne hne with h | h
    · have := hlt _ (by omega) h
      omega
    · have := hgt _ h (by omega)
      omega
  | case2 left right hle mid h0 hcmplt ih =>
    rw [lemma_is_find_loop.eq_def, dif_pos hle]
    simp only [mid] at h0 hcmplt ih
    rw [if_neg h0, if_pos hcmplt]
    have hmidk : (left + right) / 2 < k := by
      by_contra hge
      push_neg at hge
      rcases eq_or_lt_of_le hge with he | hl
      · exact h0 (he ▸ hk)
      · have := hgt _ hl (by omega)
        omega
    exact ih (by omega) hkr (fun i hi1 hi2 => hlt i (by omega) hi2) hgt
  | case3 left right hle mid h0 hcmplt ih =>
    rw [lemma_is_find_loop.eq_def, dif_pos hle]
    simp only [mid] at h0 hcmplt ih
    rw [if_neg h0, if_neg hcmplt]
    have hmidk : k < (left + right) / 2 := by
      by_contra hge
      push_neg at hge
      rcases eq_or_lt_of_le hge with he | hl
      · exact h0 (by rw [he]; exact hk)
      · have := hlt _ (by omega) hl
        omega
    exact ih hlk (by omega) hlt (fun i hi1 hi2 => hgt i hi1 (by omega))
  | case4 left right hle =>
    omega

theorem wordCmp_eq_zero_iff (a : List Nat) : ∀ b, wordCmp a b = 0 ↔ a = b := by
  induction a with
  | nil =>
    intro b
    cases b with
    | nil => simp [wordCmp]
    | cons y q =>
      simp only [wordCmp]
      constructor
      · intro h; omega
      · intro h; exact absurd h (by simp)
  | cons x s ih =>
    intro b
    cases b with
    | nil =>
      simp only [wordCmp]
      constructor
      · intro h; omega
      · intro h; exact absurd h (by simp)
    | cons y q =>
      simp only [wordCmp]
      by_cases h : x = y
      · rw [if_pos h]
        simp [h, ih q]
      · rw [if_neg h]
        constructor
        · intro he
          exfalso
          apply h
          omega
        · intro he
          exact absurd he (by simp [h])

theorem wordCmp_swap (a : List Nat) : ∀ b, wordCmp a b = -wordCmp b a := by
  induction a with
  | nil =>
    intro b
    cases b <;> simp [wordCmp]
  | cons x s ih =>
    intro b
    cases b with
    | nil => simp [wordCmp]
    | cons y q =>
      simp only [wordCmp]
      by_cases h : x = y
      · rw [if_pos h, if_pos h.symm]
        exact ih q
      · rw [if_neg h, if_neg (Ne.symm h)]
        omega

theorem bigramCmp_swap (bin : LemmaIsBinary) (i j : Nat) :
    lemma_is_compare_bigram bin i (bigramW1Key bin j) (bigramW2Key bin j) =
    -lemma_is_compare_bigram bin j (bigramW1Key bin i) (bigramW2Key bin i) := by
  simp only [lemma_is_compare_bigram]
  by_cases h : wordCmp (bigramW1Key bin i) (bigramW1Key bin j) = 0
  · have h2 : wordCmp (bigramW1Key bin j) (bigramW1Key bin i) = 0 := by
      rw [wordCmp_swap]; omega
    rw [if_pos h, if_pos h2]
    exact wordCmp_swap _ _
  · have h2 : ¬wordCmp (bigramW1Key bin j) (bigramW1Key bin i) = 0 := by
      rw [wordCmp_swap]; omega
    rw [if_neg h, if_neg h2]
    rw [wordCmp_swap]

theorem bigramCmp_eq_zero_iff (bin : LemmaIsBinary) (i : Nat) (w1 w2 : List Nat) :
    lemma_is_compare_bigram bin i w1 w2 = 0 ↔
    (bigramW1Key bin i = w1 ∧ bigramW2Key bin i = w2) := by
  simp only [lemma_is_compare_bigram]
  by_cases h : wordCmp (bigramW1Key bin i) w1 = 0
  · rw [if_pos h]
    have h1 := (wordCmp_eq_zero_iff _ w1).mp h
    rw [wordCmp_eq_zero_iff]
    simp [h1]
  · rw [if_neg h]
    constructor
    · intro h0
      exact absurd h0 h
    · rintro ⟨h1, h2⟩
      exact absurd ((wordCmp_eq_zero_iff _ _).mpr h1) h

theorem find_word_spec (bin : LemmaIsBinary) (hsort : wordIndexSorted bin) :
    (∀ w, (∀ i, i < bin.wordCount → wordKey bin i ≠ w) →
      lemma_is_find_word bin w = -1) ∧
    (∀ w k, k < bin.wordCount → wordKey bin k = w →
      lemma_is_find_word bin w = (k : Int)) := by
  constructor
  · intro w habs
    rcases find_loop_sound (fun mid => lemma_is_compare_word bin mid.toNat w) 0
      ((bin.wordCount : Int) - 1) with h | ⟨h1, h2, h3⟩
    · exact h
    · exfalso
      set res := lemma_is_find_loop (fun mid => lemma_is_compare_word bin mid.toNat w) 0
        ((bin.wordCount : Int) - 1) with hres
      have hlt : res.toNat < bin.wordCount := by omega
      have := (wordCmp_eq_zero_iff (wordKey bin res.toNat) w).mp h3
      exact habs _ hlt this
  · intro w k hk hkey
    apply find_loop_complete
    · omega
    · omega
    · show lemma_is_compare_word bin ((k : Int)).toNat w = 0
      simp only [Int.toNat_natCast, lemma_is_compare_word]
      rw [wordCmp_eq_zero_iff]
      exact hkey
    · intro i hi0 hik
      show lemma_is_compare_word bin i.toNat w < 0
      have h1 : i.toNat < k := by omega
      have := hsort k hk i.toNat h1
      rw [hkey] at this
      exact this
    · intro i hik hir
      show 0 < lemma_is_compare_word bin i.toNat w
      have h1 : k < i.toNat := by omega
      have h2 : i.toNat < bin.wordCount := by omega
      have hs := hsort i.toNat h2 k h1
      have hswap := wordCmp_swap (wordKey bin i.toNat) (wordKey bin k)
      rw [← hkey]
      simp only [lemma_is_compare_word]
      omega

theorem find_bigram_spec (bin : LemmaIsBinary) (hsort : bigramIndexSorted bin) :
    (∀ w1 w2, (∀ i, i < bin.bigramCount →
        ¬(bigramW1Key bin i = w1 ∧ bigramW2Key bin i = w2)) →
      lemma_is_find_bigram bin w1 w2 = -1) ∧
    (∀ w1 w2 k, k < bin.bigramCount → bigramW1Key bin k = w1 →
      bigramW2Key bin k = w2 → lemma_is_find_bigram bin w1 w2 = (k : Int)) := by
  constructor
  · intro w1 w2 habs
    by_cases hz : bin.bigramCount = 0
    · simp [lemma_is_find_bigram, hz]
    · simp only [lemma_is_find_bigram, if_neg hz]
      rcases find_loop_sound
        (fun mid => lemma_is_compare_bigram bin mid.toNat w1 w2) 0
        ((bin.bigramCount : Int) - 1) with h | ⟨h1, h2, h3⟩
      · exact h
      · exfalso
        set res := lemma_is_find_loop
          (fun mid => lemma_is_compare_bigram bin mid.toNat w1 w2) 0
          ((bin.bigramCount : Int) - 1) with hres
        have hlt : res.toNat < bin.bigramCount := by omega
        exact habs _ hlt ((bigramCmp_eq_zero_iff bin res.toNat w1 w2).mp h3)
  · intro w1 w2 k hk hk1 hk2
    have hz : bin.bigramCount ≠ 0 := by omega
    simp only [lemma_is_find_bigram, if_neg hz]
    apply find_loop_complete
    · omega
    · omega
    · show lemma_is_compare_bigram bin ((k : Int)).toNat w1 w2 = 0
      simp only [Int.toNat_natCast]
      exact (bigramCmp_eq_zero_iff bin k w1 w2).mpr ⟨hk1, hk2⟩
    · intro i hi0 hik
      show lemma_is_compare_bigram bin i.toNat w1 w2 < 0
      have h1 : i.toNat < k := by omega
      have := hsort k hk i.toNat h1
      rw [hk1, hk2] at this
      exact this
    · intro i hik hir
      show 0 < lemma_is_compare_bigram bin i.toNat w1 w2
      have h1 : k < i.toNat := by omega
      have h2 : i.toNat < bin.bigramCount := by omega
      have hs := hsort i.toNat h2 k h1
      have hswap := bigramCmp_swap bin i.toNat k
      rw [← hk1, ← hk2]
      omega

theorem load_ok_layout (data : List Nat) (bin : LemmaIsBinary)
    (h : lemma_is_load_binary data = .ok bin) :
    bin.data = data ∧
    bin.stringPool = 32 ∧
    bin.lemmaOffsets = 32 + bin.stringPoolSize ∧
    bin.lemmaLengths = bin.lemmaOffsets + bin.lemmaCount * 4 ∧
    bin.wordOffsets = pad4 (bin.lemmaLengths + bin.lemmaCount) ∧
    bin.wordLengths = bin.wordOffsets + bin.wordCount * 4 ∧
    bin.entryOffsets = pad4 (bin.wordLengths + bin.wordCount) ∧
    bin.entries = bin.entryOffsets + (bin.wordCount + 1) * 4 ∧
    32 + bin.stringPoolSize ≤ data.length ∧
    bin.entries + bin.entryCount * 4 ≤ data.length ∧
    (bin.version = 1 ∨ bin.version = 2) := by
  simp only [lemma_is_load_binary] at h
  split at h
  · exact absurd h (by simp)
  next magic hm =>
  split at h
  · exact absurd h (by simp)
  split at h
  · exact absurd h (by simp)
  next version hv =>
  split at h
  · exact absurd h (by simp)
  next hver =>
  split at h
  next sp lc wc ec bc hsp hlc hwc hec hbc =>
    split at h
    · exact absurd h (by simp)
    next hspool =>
    split at h
    · exact absurd h (by simp)
    next hentries =>
    split at h
    · split at h
      · exact absurd h (by simp)
      next hbig =>
        obtain ⟨hv1, _⟩ := u32HeaderRead_some data 4 version hv
        obtain ⟨hsp1, _⟩ := u32HeaderRead_some data 8 sp hsp
        rw [LoadResult.ok.injEq] at h
        subst h
        refine ⟨rfl, rfl, rfl, rfl, rfl, rfl, rfl, rfl, ?_, ?_, ?_⟩ <;> (dsimp only; omega)
    · obtain ⟨hv1, _⟩ := u32HeaderRead_some data 4 version hv
      rw [LoadResult.ok.injEq] at h
      subst h
      refine ⟨rfl, rfl, rfl, rfl, rfl, rfl, rfl, rfl, ?_, ?_, ?_⟩ <;> (dsimp only; omega)
  · exact absurd h (by simp)

/-! ## Helper lemmas for the candidate, disambiguation, tokenizer, query and stopword components -/

theorem mapM_option_of_forall {A B : Type} (f : A → Option B) (g : A → B) :
    ∀ l : List A, (∀ x ∈ l, f x = some (g x)) → l.mapM f = some (l.map g) := by
  intro l
  induction l with
  | nil => intro _; rfl
  | cons x xs ih =>
    intro h
    rw [List.mapM_cons, h x (by simp), ih (fun y hy => h y (by simp [hy]))]
    rfl

-- C10 sufficiency for get_lemma

theorem get_lemma_checked_of_inBounds (data : List Nat) (bin : LemmaIsBinary)
    (hload : lemma_is_load_binary data = .ok bin) (idx : Nat)
    (hv : lemmaViewInBounds bin idx) :
    lemma_is_get_lemma_checked bin idx = some (lemma_is_get_lemma bin idx) := by
  obtain ⟨hdata, hsp, hlo, hll, hwo, hwl, heo, hent, hs1, hs2, -⟩ :=
    load_ok_layout data bin hload
  obtain ⟨hidx, hview⟩ := hv
  have hlen : bin.data.length = data.length := by rw [hdata]
  simp only [pad4] at hwo heo
  have h1 : bin.lemmaOffsets + 4 * idx + 4 ≤ bin.data.length := by omega
  have h2 : bin.lemmaLengths + idx < bin.data.length := by omega
  simp only [lemma_is_get_lemma_checked, lemma_is_get_lemma, u32AtChecked,
    byteAtChecked, if_pos h1, if_pos h2, Option.bind_eq_bind, Option.some_bind]
  apply mapM_option_of_forall
  intro k hk
  rw [List.mem_range] at hk
  have h3 : bin.stringPool + u32At bin.data (bin.lemmaOffsets + 4 * idx) + k <
      bin.data.length := by omega
  rw [if_pos h3]

-- C10 sufficiency for entry range reads

theorem entry_range_checked_of_inBounds (data : List Nat) (bin : LemmaIsBinary)
    (hload : lemma_is_load_binary data = .ok bin) (idx : Nat)
    (hv : entryRangeInBounds bin idx) :
    ∃ ws, entryRangeReadsChecked bin idx = some ws := by
  obtain ⟨hdata, hsp, hlo, hll, hwo, hwl, heo, hent, hs1, hs2, -⟩ :=
    load_ok_layout data bin hload
  obtain ⟨hidx, hstart, hstop⟩ := hv
  have hlen : bin.data.length = data.length := by rw [hdata]
  simp only [pad4] at hwo heo
  have h1 : bin.entryOffsets + 4 * idx + 4 ≤ bin.data.length := by omega
  have h2 : bin.entryOffsets + 4 * (idx + 1) + 4 ≤ bin.data.length := by omega
  simp only [entryRangeReadsChecked, u32AtChecked, if_pos h1, if_pos h2,
    Option.bind_eq_bind, Option.some_bind]
  split
  · exact ⟨[], rfl⟩
  next hlt =>
    refine ⟨_, mapM_option_of_forall _
      (fun i => u32At bin.data (bin.entries + 4 * i)) _ ?_⟩
    intro i hi
    rw [List.mem_range'] at hi
    have h3 : i < bin.entryCount := by omega
    have h4 : bin.entries + 4 * i + 4 ≤ bin.data.length := by omega
    rw [if_pos h4]

theorem candidates_fallback (data : List Nat) (bin : LemmaIsBinary)
    (hload : lemma_is_load_binary data = .ok bin) (word : List Nat)
    (hmono : 0 ≤ lemma_is_find_word bin (lowerBytes word) →
      u32At bin.data (bin.entryOffsets +
        4 * (lemma_is_find_word bin (lowerBytes word)).toNat) ≤
      u32At bin.data (bin.entryOffsets +
        4 * ((lemma_is_find_word bin (lowerBytes word)).toNat + 1))) :
    lemma_is_get_candidates bin word ≠ [] ∧
    (lemma_is_find_word bin (lowerBytes word) < 0 →
      lemma_is_get_candidates bin word = [syntheticCandidate (lowerBytes word)] ∧
      icelandic_lexize bin word = some [lowerBytes word]) ∧
    (¬lemma_is_find_word bin (lowerBytes word) < 0 →
      u32At bin.data (bin.entryOffsets +
        4 * (lemma_is_find_word bin (lowerBytes word)).toNat) =
      u32At bin.data (bin.entryOffsets +
        4 * ((lemma_is_find_word bin (lowerBytes word)).toNat + 1)) →
      lemma_is_get_candidates bin word = [syntheticCandidate (lowerBytes word)] ∧
      icelandic_lexize bin word = some [lowerBytes word]) ∧
    (∃ res, icelandic_lexize bin word = some res ∧ res ≠ []) := by
  by_cases hidx : lemma_is_find_word bin (lowerBytes word) < 0
  · refine ⟨?_, fun _ => ⟨?_, ?_⟩, fun h => absurd hidx (by omega), ?_⟩
    · simp [lemma_is_get_candidates, if_pos hidx]
    · simp [lemma_is_get_candidates, if_pos hidx]
    · simp [icelandic_lexize, if_pos hidx]
    · exact ⟨[lowerBytes word], by simp [icelandic_lexize, if_pos hidx], by simp⟩
  · have hse := hmono (by omega)
    have hnlt : ¬ u32At bin.data (bin.entryOffsets +
        4 * ((lemma_is_find_word bin (lowerBytes word)).toNat + 1)) <
        u32At bin.data (bin.entryOffsets +
        4 * (lemma_is_find_word bin (lowerBytes word)).toNat) := by omega
    refine ⟨?_, fun h => absurd h hidx, fun _ heq => ⟨?_, ?_⟩, ?_⟩
    · simp only [lemma_is_get_candidates, if_neg hidx, if_neg hnlt]
      split
      · simp
      · assumption
    · simp only [lemma_is_get_candidates, if_neg hidx, if_neg hnlt]
      rw [heq]
      simp
    · simp only [icelandic_lexize, if_neg hidx, if_neg hnlt]
      rw [heq]
      simp
    · simp only [icelandic_lexize, if_neg hidx, if_neg hnlt]
      split
      · exact ⟨[lowerBytes word], rfl, by simp⟩
      next hne =>
        refine ⟨_, rfl, ?_⟩
        simp only [ne_eq, List.map_eq_nil_iff]
        exact hne

theorem bestLoop_spec (l : List ℚ) : ∀ (i : Nat) (bs : ℚ) (bi : Nat),
    (∀ j, j < l.length → l.getD j 0 ≤ (bestLoop l i bs bi).1) ∧
    bs ≤ (bestLoop l i bs bi).1 ∧
    (bestLoop l i bs bi = (bs, bi) ∨
     (∃ j, j < l.length ∧ bestLoop l i bs bi = (l.getD j 0, i + j) ∧
       bs < l.getD j 0 ∧ ∀ j', j' < j → l.getD j' 0 < (bestLoop l i bs bi).1)) := by
  induction l with
  | nil =>
    intro i bs bi
    exact ⟨by simp [bestLoop], by simp [bestLoop], Or.inl rfl⟩
  | cons s rest ih =>
    intro i bs bi
    by_cases h : bs < s
    · have hb : bestLoop (s :: rest) i bs bi = bestLoop rest (i + 1) s i := by
        simp [bestLoop, h]
      obtain ⟨ihA, ihB, ihC⟩ := ih (i + 1) s i
      rw [hb]
      refine ⟨?_, by linarith, ?_⟩
      · intro j hj
        cases j with
        | zero => simpa using ihB
        | succ jj =>
          simp only [List.getD_cons_succ]
          exact ihA jj (by simpa using hj)
      · rcases ihC with he | ⟨j, hj1, hj2, hj3, hj4⟩
        · right
          refine ⟨0, by simp, ?_, by simpa using h, by omega⟩
          rw [he]
          simp
        · right
          refine ⟨j + 1, by simpa using hj1, ?_, ?_, ?_⟩
          · rw [hj2]
            simp only [List.getD_cons_succ]
            rw [Prod.mk.injEq]
            exact ⟨rfl, by omega⟩
          · simp only [List.getD_cons_succ]
            linarith
          · intro jp hjp
            cases jp with
            | zero =>
              simp only [List.getD_cons_zero]
              rw [hj2]
              exact hj3
            | succ jpp =>
              simp only [List.getD_cons_succ]
              exact hj4 jpp (by omega)
    · have hb : bestLoop (s :: rest) i bs bi = bestLoop rest (i + 1) bs bi := by
        simp [bestLoop, h]
      obtain ⟨ihA, ihB, ihC⟩ := ih (i + 1) bs bi
      rw [hb]
      push_neg at h
      refine ⟨?_, ihB, ?_⟩
      · intro j hj
        cases j with
        | zero =>
          simp only [List.getD_cons_zero]
          linarith
        | succ jj =>
          simp only [List.getD_cons_succ]
          exact ihA jj (by simpa using hj)
      · rcases ihC with he | ⟨j, hj1, hj2, hj3, hj4⟩
        · exact Or.inl he
        · right
          refine ⟨j + 1, by simpa using hj1, ?_, ?_, ?_⟩
          · rw [hj2]
            simp only [List.getD_cons_succ]
            rw [Prod.mk.injEq]
            exact ⟨rfl, by omega⟩
          · simp only [List.getD_cons_succ]
            exact hj3
          · intro jp hjp
            cases jp with
            | zero =>
              simp only [List.getD_cons_zero]
              rw [hj2]
              linarith
            | succ jpp =>
              simp only [List.getD_cons_succ]
              exact hj4 jpp (by omega)

theorem foldl_score_const (logf : Nat → ℚ) (fr : LemmaCandidate → Nat) :
    ∀ (l : List LemmaCandidate) (acc : ℚ), (∀ x ∈ l, fr x = 0) →
    l.foldl (fun a p => if 0 < fr p then a + logf (fr p) else a) acc = acc := by
  intro l
  induction l with
  | nil => intro acc _; rfl
  | cons x xs ih =>
    intro acc h
    have hx : fr x = 0 := h x (by simp)
    simp only [List.foldl_cons, hx]
    rw [if_neg (by omega)]
    exact ih acc (fun y hy => h y (by simp [hy]))

theorem foldl_score_mono (logf : Nat → ℚ) (fr : LemmaCandidate → Nat)
    (hw : ∀ n, 0 < n → 0 < logf n) :
    ∀ (l : List LemmaCandidate) (acc : ℚ),
    acc ≤ l.foldl (fun a p => if 0 < fr p then a + logf (fr p) else a) acc := by
  intro l
  induction l with
  | nil => intro acc; exact le_refl acc
  | cons x xs ih =>
    intro acc
    simp only [List.foldl_cons]
    by_cases hx : 0 < fr x
    · rw [if_pos hx]
      calc acc ≤ acc + logf (fr x) := by have := hw _ hx; linarith
      _ ≤ _ := ih _
    · rw [if_neg hx]
      exact ih acc

theorem candScore_zero (logf : Nat → ℚ) (bin : LemmaIsBinary)
    (prev next : List LemmaCandidate) (c : LemmaCandidate)
    (hp : ∀ p ∈ prev, lemma_is_bigram_freq bin p.lemmaBytes c.lemmaBytes = 0)
    (hn : ∀ n ∈ next, lemma_is_bigram_freq bin c.lemmaBytes n.lemmaBytes = 0) :
    candScore logf bin prev next c = 0 := by
  unfold candScore
  rw [foldl_score_const logf _ prev 0 hp]
  exact foldl_score_const logf _ next 0 hn

theorem candScore_nonneg (logf : Nat → ℚ) (bin : LemmaIsBinary)
    (prev next : List LemmaCandidate) (c : LemmaCandidate)
    (hw : ∀ n, 0 < n → 0 < logf n) :
    0 ≤ candScore logf bin prev next c := by
  unfold candScore
  calc (0 : ℚ) ≤ prev.foldl _ 0 := foldl_score_mono logf _ hw prev 0
  _ ≤ _ := foldl_score_mono logf _ hw next _

theorem scores_getD_eq (logf : Nat → ℚ) (bin : LemmaIsBinary)
    (candidates prev next : List LemmaCandidate) (j : Nat)
    (hj : j < candidates.length) :
    (candidates.map (candScore logf bin prev next)).getD j 0 =
    candScore logf bin prev next (candidates.getD j (syntheticCandidate [])) := by
  rw [List.getD_eq_getElem _ _ (by simpa using hj), List.getD_eq_getElem _ _ hj]
  simp

theorem disambiguate_spec (logf : Nat → ℚ) (expf : ℚ → ℚ) (bin : LemmaIsBinary)
    (candidates prev next : List LemmaCandidate)
    (hc : candidates ≠ []) (hw : ∀ n, 0 < n → 0 < logf n) :
    ∃ out, lemma_is_disambiguate_bigram logf expf bin candidates prev next = some out ∧
    (∀ c ∈ candidates,
      (∀ p ∈ prev, lemma_is_bigram_freq bin p.lemmaBytes c.lemmaBytes = 0) →
      (∀ n ∈ next, lemma_is_bigram_freq bin c.lemmaBytes n.lemmaBytes = 0) →
      candScore logf bin prev next c = 0) ∧
    (∃ bi, bi < candidates.length ∧
      out.outLemma = (candidates.getD bi (syntheticCandidate [])).lemmaBytes ∧
      out.outPos = (candidates.getD bi (syntheticCandidate [])).pos ∧
      (∀ j, j < candidates.length →
        candScore logf bin prev next (candidates.getD j (syntheticCandidate [])) ≤
        candScore logf bin prev next (candidates.getD bi (syntheticCandidate []))) ∧
      (∀ j, j < bi →
        candScore logf bin prev next (candidates.getD j (syntheticCandidate [])) <
        candScore logf bin prev next (candidates.getD bi (syntheticCandidate []))) ∧
      (out.byBigram = true ↔
        0 < candScore logf bin prev next (candidates.getD bi (syntheticCandidate [])))) ∧
    ((∀ c ∈ candidates, candScore logf bin prev next c = 0) →
      out.byBigram = false ∧ out.confidence = 0 ∧
      out.outLemma = (candidates.headD (syntheticCandidate [])).lemmaBytes ∧
      out.outPos = (candidates.headD (syntheticCandidate [])).pos) ∧
    (prev = [] → next = [] →
      out.byBigram = false ∧ out.confidence = 0 ∧
      out.outLemma = (candidates.headD (syntheticCandidate [])).lemmaBytes) := by
  have hne : ¬(candidates.length = 0) := by simpa using hc
  obtain ⟨hA, hB, hC⟩ :=
    bestLoop_spec (candidates.map (candScore logf bin prev next)) 0 0 0
  have hlenmap : (candidates.map (candScore logf bin prev next)).length =
      candidates.length := by simp
  have hnn : ∀ j, j < candidates.length →
      0 ≤ (candidates.map (candScore logf bin prev next)).getD j 0 := by
    intro j hj
    rw [scores_getD_eq logf bin candidates prev next j hj]
    exact candScore_nonneg logf bin prev next _ hw
  have hhead : candidates.getD 0 (syntheticCandidate []) =
      candidates.headD (syntheticCandidate []) := by
    cases candidates with
    | nil => rfl
    | cons a l => rfl
  rcases hC with hbz | ⟨j, hj1, hj2, hj3, hj4⟩
  · -- no update ever happened: best = (0, 0), every score ≤ 0, hence = 0
    have hall : ∀ k, k < candidates.length →
        (candidates.map (candScore logf bin prev next)).getD k 0 = 0 := by
      intro k hk
      have h1 := hA k (by omega)
      rw [hbz] at h1
      simp only [] at h1
      have h2 := hnn k hk
      have h1b : (candidates.map (candScore logf bin prev next)).getD k 0 ≤ 0 := h1
      linarith
    have hb1 : (bestLoop (candidates.map (candScore logf bin prev next)) 0 0 0).1 = 0 := by
      rw [hbz]
    have hb2 : (bestLoop (candidates.map (candScore logf bin prev next)) 0 0 0).2 = 0 := by
      rw [hbz]
    have hval : lemma_is_disambiguate_bigram logf expf bin candidates prev next =
        some { outLemma := (candidates.getD 0 (syntheticCandidate [])).lemmaBytes,
               outPos := (candidates.getD 0 (syntheticCandidate [])).pos,
               confidence := 0, byBigram := false } := by
      simp only [lemma_is_disambiguate_bigram, if_neg hne, hbz]
      rfl
    refine ⟨_, hval, ?_, ?_, ?_, ?_⟩
    · intro c hcmem hp hn
      exact candScore_zero logf bin prev next c hp hn
    · refine ⟨0, by omega, rfl, rfl, ?_, by omega, ?_⟩
      · intro k hk
        have h1 := hall k hk
        have h2 := hall 0 (by omega)
        rw [scores_getD_eq logf bin candidates prev next k hk] at h1
        rw [scores_getD_eq logf bin candidates prev next 0 (by omega)] at h2
        rw [h1, h2]
      · constructor
        · intro hfalse
          exact absurd hfalse (by simp)
        · intro hpos
          have h2 := hall 0 (by omega)
          rw [scores_getD_eq logf bin candidates prev next 0 (by omega)] at h2
          rw [h2] at hpos
          exact absurd hpos (by simp)
    · intro _
      exact ⟨rfl, rfl, by rw [hhead], by rw [hhead]⟩
    · intro _ _
      exact ⟨rfl, rfl, by rw [hhead]⟩
  · -- an update happened: best index j, best score scores[j] > 0
    have hb1 : (bestLoop (candidates.map (candScore logf bin prev next)) 0 0 0).1 =
        (candidates.map (candScore logf bin prev next)).getD j 0 := by
      rw [hj2]
    have hb2 : (bestLoop (candidates.map (candScore logf bin prev next)) 0 0 0).2 = j := by
      rw [hj2]
      simp
    have hjlen : j < candidates.length := by
      rw [hlenmap] at hj1; exact hj1
    have hpos : 0 < (candidates.map (candScore logf bin prev next)).getD j 0 := hj3
    have hval : lemma_is_disambiguate_bigram logf expf bin candidates prev next =
        some { outLemma := (candidates.getD j (syntheticCandidate [])).lemmaBytes,
               outPos := (candidates.getD j (syntheticCandidate [])).pos,
               confidence :=
                 (if 0 < (candidates.map (candScore logf bin prev next)).foldl
                     (fun t s => t + expf s) 0 then
                    expf ((candidates.map (candScore logf bin prev next)).getD j 0) /
                    (candidates.map (candScore logf bin prev next)).foldl
                     (fun t s => t + expf s) 0
                  else 1/2),
               byBigram := true } := by
      simp only [lemma_is_disambiguate_bigram, if_neg hne, hj2]
      rw [if_pos hpos]
      simp
    refine ⟨_, hval, ?_, ?_, ?_, ?_⟩
    · intro c hcmem hp hn
      exact candScore_zero logf bin prev next c hp hn
    · refine ⟨j, hjlen, rfl, rfl, ?_, ?_, ?_⟩
      · intro k hk
        have h1 := hA k (by omega)
        rw [hb1] at h1
        rw [scores_getD_eq logf bin candidates prev next k hk] at h1
        rw [scores_getD_eq logf bin candidates prev next j hjlen] at h1
        exact h1
      · intro k hk
        have h1 := hj4 k hk
        rw [hb1] at h1
        rw [scores_getD_eq logf bin candidates prev next k (by omega)] at h1
        rw [scores_getD_eq logf bin candidates prev next j hjlen] at h1
        exact h1
      · constructor
        · intro _
          have := hpos
          rw [scores_getD_eq logf bin candidates prev next j hjlen] at this
          exact this
        · intro _
          rfl
    · intro hz
      exfalso
      have h2 := hpos
      rw [scores_getD_eq logf bin candidates prev next j hjlen] at h2
      have h3 : candidates.getD j (syntheticCandidate []) ∈ candidates := by
        rw [List.getD_eq_getElem _ _ hjlen]
        exact List.getElem_mem hjlen
      have := hz _ h3
      linarith
    · intro hprev hnext
      exfalso
      have h2 := hpos
      rw [scores_getD_eq logf bin candidates prev next j hjlen] at h2
      subst hprev
      subst hnext
      have : candScore logf bin [] [] (candidates.getD j (syntheticCandidate [])) = 0 := rfl
      linarith

theorem takeWordRun_good (l : List Nat) : goodTokRun (takeWordRun l).1 = true := by
  induction l with
  | nil => rfl
  | cons c rest ih =>
    by_cases ha : icelandic_is_alpha c
    · simp only [takeWordRun, if_pos ha]
      simp only [goodTokRun, if_pos ha]
      exact ih
    · by_cases hj : icelandic_is_word_joiner c
      · cases rest with
        | nil => simp [takeWordRun, ha, hj, goodTokRun]
        | cons d tl =>
          by_cases hd : icelandic_is_alpha d
          · simp only [takeWordRun, if_neg ha, if_pos hj, if_pos hd]
            have hred : (takeWordRun (d :: tl)).1 = d :: (takeWordRun tl).1 := by
              simp [takeWordRun, hd]
            rw [hred] at ih
            simp [goodTokRun, ha, hj, hd] at ih ⊢
            exact ih
          · simp [takeWordRun, ha, hj, hd, goodTokRun]
      · simp [takeWordRun, ha, hj, goodTokRun]

theorem tokenize_good (l : List Nat) :
    ∀ t ∈ icelandic_tokenize_words l, goodTok t = true := by
  induction l using icelandic_tokenize_words.induct with
  | case1 => intro t ht; exact absurd ht (by simp [icelandic_tokenize_words])
  | case2 c rest ha tr ih =>
    intro t ht
    rw [icelandic_tokenize_words.eq_def] at ht
    simp only [if_pos ha] at ht
    rcases List.mem_cons.mp ht with he | hm
    · subst he
      simp only [goodTok, ha, Bool.true_and]
      exact takeWordRun_good rest
    · exact ih t hm
  | case3 c rest ha ih =>
    intro t ht
    rw [icelandic_tokenize_words.eq_def] at ht
    dsimp only at ht
    rw [if_neg ha] at ht
    exact ih t ht

theorem sepJoin_cons (sep x : List Char) (xs : List (List Char)) :
    sepJoin sep (x :: xs) = x ++ (xs.map (fun g => sep ++ g)).join := by
  induction xs generalizing x with
  | nil => simp [sepJoin]
  | cons y ys ih =>
    rw [sepJoin, ih y]
    simp

theorem foldPipe_from_pos (sep : List Char) (xs : List (List Char)) :
    ∀ (k : Nat) (acc : List Char),
    (List.enumFrom (k + 1) xs).foldl
      (fun acc jl => acc ++ (if 0 < jl.1 then sep else []) ++ jl.2) acc =
    acc ++ (xs.map (fun g => sep ++ g)).join := by
  induction xs with
  | nil => intro k acc; simp
  | cons y ys ih =>
    intro k acc
    simp only [List.enumFrom, List.foldl_cons]
    rw [ih (k + 1)]
    simp

theorem joinPipes_eq_sepJoin (g : List (List Char)) :
    joinPipes g = sepJoin " | ".data g := by
  cases g with
  | nil => rfl
  | cons x xs =>
    unfold joinPipes
    have he : List.enum (x :: xs) = (0, x) :: List.enumFrom 1 xs := rfl
    rw [he]
    simp only [List.foldl_cons]
    rw [foldPipe_from_pos " | ".data xs 0]
    rw [sepJoin_cons]
    simp

theorem queryBuildStep_render (st : List Char × Bool) (g : List (List Char))
    (hg : ¬g.length = 0) :
    queryBuildStep st g =
    (st.1 ++ (if st.2 then [] else " & ".data) ++ renderConjunct g, false) := by
  simp only [queryBuildStep, if_neg hg, renderConjunct]
  by_cases h1 : 1 < g.length
  · simp [if_pos h1, joinPipes_eq_sepJoin]
  · simp [if_neg h1, joinPipes_eq_sepJoin]

theorem build_fold_false (groups : List (List (List Char))) :
    ∀ acc : List Char,
    groups.foldl queryBuildStep (acc, false) =
    (acc ++ ((groups.filter (fun g => !g.isEmpty)).map
      (fun g => " & ".data ++ renderConjunct g)).join, false) := by
  induction groups with
  | nil => intro acc; simp
  | cons g gs ih =>
    intro acc
    by_cases hg : g.length = 0
    · have hge : g = [] := List.length_eq_zero.mp hg
      subst hge
      simp only [List.foldl_cons, queryBuildStep, if_pos (by simp : ([] : List (List Char)).length = 0)]
      rw [ih acc]
      simp [List.filter_cons]
    · rw [List.foldl_cons, queryBuildStep_render _ _ hg]
      simp only [if_neg (by simp : ¬(false = true))]
      rw [ih]
      have hne : (!g.isEmpty) = true := by
        cases g
        · exact absurd rfl hg
        · rfl
      rw [List.filter_cons, if_pos hne]
      simp

theorem build_fold_true (groups : List (List (List Char))) :
    ∀ acc : List Char,
    (groups.foldl queryBuildStep (acc, true)).1 =
    acc ++ sepJoin " & ".data
      ((groups.filter (fun g => !g.isEmpty)).map renderConjunct) := by
  induction groups with
  | nil => intro acc; simp [sepJoin]
  | cons g gs ih =>
    intro acc
    by_cases hg : g.length = 0
    · have hge : g = [] := List.length_eq_zero.mp hg
      subst hge
      simp only [List.foldl_cons, queryBuildStep, if_pos (by simp : ([] : List (List Char)).length = 0)]
      rw [ih acc]
      simp [List.filter_cons]
    · rw [List.foldl_cons, queryBuildStep_render _ _ hg]
      simp only [if_pos rfl]
      rw [build_fold_false]
      have hne : (!g.isEmpty) = true := by
        cases g
        · exact absurd rfl hg
        · rfl
      rw [List.filter_cons, if_pos hne]
      simp only [List.map_cons]
      rw [sepJoin_cons]
      simp [Function.comp_def]

theorem query_build_eq_spec (groups : List (List (List Char))) :
    icelandic_fts_query_build groups = specQueryString groups := by
  unfold icelandic_fts_query_build specQueryString
  rw [build_fold_true]
  simp

theorem stopword_simple_eq_mem (tbl : List (List Nat)) (lm : List Nat) :
    lemma_is_stopword_simple tbl lm = decide (lm ∈ tbl) := by
  unfold lemma_is_stopword_simple
  by_cases h : tbl.length = 0
  · have he : tbl = [] := List.length_eq_zero.mp h
    subst he
    simp
  · rw [if_neg h]
    rcases hf : tbl.find? (fun w => w == lm) with _ | w
    · have hnone := List.find?_eq_none.mp hf
      simp only [Option.isSome_none]
      symm
      simp only [decide_eq_false_iff_not]
      intro hmem
      have := hnone lm hmem
      simp at this
    · have hp := List.find?_some hf
      have hw : w = lm := by simpa using hp
      subst hw
      have hmem := List.mem_of_find?_eq_some hf
      simp [hmem]

theorem tokenSurviving_no_filter (logf : Nat → ℚ) (expf : ℚ → ℚ)
    (ctx : List ContextualStopwordEntry) (stop : List (List Nat))
    (bin : LemmaIsBinary) (cands prev next : List LemmaCandidate)
    (h : ∀ out, lemma_is_disambiguate_bigram logf expf bin cands prev next = some out →
      out.byBigram = false) :
    tokenSurvivingLemmas logf expf ctx stop bin cands prev next =
    dedupFirstSeen (cands.map (fun c => c.lemmaBytes)) := by
  unfold tokenSurvivingLemmas dedupFirstSeen
  rw [List.foldl_map]
  rcases hdis : lemma_is_disambiguate_bigram logf expf bin cands prev next with _ | out
  · simp only [hdis]
    simp
  · have hb := h out hdis
    simp only [hdis]
    simp [hb]

/-! ## Claim theorems -/

/-- C1: the spec's load-time safety contract requires every region —
including the fixed 32-byte header itself — to be bounds-checked against
the buffer size before it is dereferenced; the loader violates this: on a
1-byte buffer, and even on a 27-byte buffer whose magic and version are
valid, it dereferences header bytes past the end of the allocation
(`oobHeaderRead`) instead of failing cleanly or staying in bounds. -/
theorem claim_C1_header_oob :
    lemma_is_load_binary [0] = LoadResult.oobHeaderRead ∧
    lemma_is_load_binary (le32 0x4C454D41 ++ le32 1 ++ List.replicate 19 0) =
      LoadResult.oobHeaderRead := by
  refine ⟨by decide, by decide⟩

/-- C2: for every buffer large enough to contain the header fields the
loader reads (28 bytes), loading fails with the bad-magic error exactly
when the first four bytes are not `0x4C454D41`; with the unsupported
-version error exactly when the magic is good and the version field is
neither 1 nor 2; with a corruption error exactly when magic and version
are good and some declared region extends past the buffer end; and a
dictionary value is produced only when none of these conditions holds. -/
theorem claim_C2_load_errors (data : List Nat) (h : 28 ≤ data.length) :
    (lemma_is_load_binary data = .badMagic ↔ u32At data 0 ≠ 0x4C454D41) ∧
    (lemma_is_load_binary data = .badVersion ↔
      u32At data 0 = 0x4C454D41 ∧ u32At data 4 ≠ 1 ∧ u32At data 4 ≠ 2) ∧
    ((lemma_is_load_binary data = .corruptStringPool ∨
      lemma_is_load_binary data = .corruptEntries ∨
      lemma_is_load_binary data = .corruptBigrams) ↔
      (u32At data 0 = 0x4C454D41 ∧ (u32At data 4 = 1 ∨ u32At data 4 = 2) ∧
        declaredRegionOverflow data)) ∧
    (∀ bin, lemma_is_load_binary data = .ok bin →
      u32At data 0 = 0x4C454D41 ∧ (u32At data 4 = 1 ∨ u32At data 4 = 2) ∧
      ¬declaredRegionOverflow data) := by
  have e0 := u32HeaderRead_of_le data 0 (by omega)
  have e4 := u32HeaderRead_of_le data 4 (by omega)
  have e8 := u32HeaderRead_of_le data 8 (by omega)
  have e12 := u32HeaderRead_of_le data 12 (by omega)
  have e16 := u32HeaderRead_of_le data 16 (by omega)
  have e20 := u32HeaderRead_of_le data 20 (by omega)
  have e24 := u32HeaderRead_of_le data 24 (by omega)
  simp only [lemma_is_load_binary, e0, e4, e8, e12, e16, e20, e24]
  simp only [declaredRegionOverflow, pad4]
  split_ifs with h1 h2 h3 h4 h5 h6 <;>
    simp only [reduceCtorEq, false_or, or_false, or_self, iff_false, iff_true,
      not_or, not_and, not_lt, true_and, false_iff, true_iff, ne_eq,
      Decidable.not_not, forall_const, LoadResult.ok.injEq, false_implies,
      implies_true, and_true, true_implies, forall_eq'] <;>
    omega

/-- C2 witness: the good dictionary buffer is long enough for the header;
it does not fail with the bad-magic error, and the same buffer with its
first four bytes overwritten does. -/
theorem claim_C2_witness :
    lemma_is_load_binary goodDictBytes ≠ LoadResult.badMagic ∧
    lemma_is_load_binary (le32 77 ++ goodDictBytes.drop 4) = LoadResult.badMagic := by
  constructor
  · intro hbad
    have h := (claim_C2_load_errors goodDictBytes (by decide)).1
    exact (h.mp hbad) (by decide)
  · exact ((claim_C2_load_errors (le32 77 ++ goodDictBytes.drop 4) (by decide)).1).mpr
      (by decide)

unseal lemma_is_find_loop in
/-- C3 (counterexample to the claim as stated): a successfully loaded
dictionary whose only word `"a"` stores the inverted entry range
`[1, 0]`; resolving `"a"` returns the empty candidate list (count 0,
`NULL`), and `icelandic_lexize` returns SQL `NULL`, not the synthetic
identity candidate. -/
theorem claim_C3_counterexample :
    lemma_is_load_binary badRangeDictBytes = LoadResult.ok badRangeDictBin ∧
    lemma_is_get_candidates badRangeDictBin [0x61] = [] ∧
    icelandic_lexize badRangeDictBin [0x61] = none := by
  refine ⟨by decide, by decide, by decide⟩

/-- C3 (amended): for every successfully loaded dictionary and input word
whose entry range at the looked-up index is non-inverted (`start ≤ end`,
which the spec's monotonicity invariant guarantees), candidate resolution
and single-word lemmatization never fail and never return an empty
result; the not-found and found-but-empty-range cases (the latter
coinciding with dedup-leaves-zero, since a non-empty range always yields
a candidate) return exactly one synthetic candidate whose lemma is the
lowercased input, with default part of speech and zero morphology. -/
theorem claim_C3_fallbacks (data : List Nat) (bin : LemmaIsBinary)
    (hload : lemma_is_load_binary data = .ok bin) (word : List Nat)
    (hmono : 0 ≤ lemma_is_find_word bin (lowerBytes word) →
      u32At bin.data (bin.entryOffsets +
        4 * (lemma_is_find_word bin (lowerBytes word)).toNat) ≤
      u32At bin.data (bin.entryOffsets +
        4 * ((lemma_is_find_word bin (lowerBytes word)).toNat + 1))) :
    lemma_is_get_candidates bin word ≠ [] ∧
    (lemma_is_find_word bin (lowerBytes word) < 0 →
      lemma_is_get_candidates bin word = [syntheticCandidate (lowerBytes word)] ∧
      icelandic_lexize bin word = some [lowerBytes word]) ∧
    (¬lemma_is_find_word bin (lowerBytes word) < 0 →
      u32At bin.data (bin.entryOffsets +
        4 * (lemma_is_find_word bin (lowerBytes word)).toNat) =
      u32At bin.data (bin.entryOffsets +
        4 * ((lemma_is_find_word bin (lowerBytes word)).toNat + 1)) →
      lemma_is_get_candidates bin word = [syntheticCandidate (lowerBytes word)] ∧
      icelandic_lexize bin word = some [lowerBytes word]) ∧
    (∃ res, icelandic_lexize bin word = some res ∧ res ≠ []) :=
  candidates_fallback data bin hload word hmono

unseal lemma_is_find_loop in
/-- C3 witness: on the good dictionary, the unknown word `"c"` resolves to
its own synthetic candidate, and the known word `"b"` (present with an
empty entry range) lemmatizes to itself. -/
theorem claim_C3_witness :
    lemma_is_get_candidates goodDictBin [0x63] = [syntheticCandidate [0x63]] ∧
    icelandic_lexize goodDictBin [0x62] = some [[0x62]] := by
  constructor
  · have h := (claim_C3_fallbacks goodDictBytes goodDictBin (by decide) [0x63]
      (by decide)).2.1 (by decide)
    exact h.1
  · have h := (claim_C3_fallbacks goodDictBytes goodDictBin (by decide) [0x62]
      (by decide)).2.2.1 (by decide) (by decide)
    exact h.2

/-- C4: for every non-empty candidate list (and any weight function
standing for `log(freq+1)`, positive on positive frequencies, so in
particular the real one), disambiguation always produces an output in
which: a candidate with no matching bigram against either neighbor list
scores exactly 0; the chosen candidate is the one at the first index
attaining the maximal score (strict-max selection, first-wins ties);
`usedBigram` holds exactly when that maximal score is positive; and when
every score is 0 — in particular when both neighbor lists are empty —
`usedBigram` is false, confidence is 0, and the first candidate in input
order is returned. -/
theorem claim_C4_disambiguation (logf : Nat → ℚ) (expf : ℚ → ℚ)
    (bin : LemmaIsBinary) (candidates prev next : List LemmaCandidate)
    (hc : candidates ≠ []) (hw : ∀ n, 0 < n → 0 < logf n) :
    ∃ out, lemma_is_disambiguate_bigram logf expf bin candidates prev next = some out ∧
    (∀ c ∈ candidates,
      (∀ p ∈ prev, lemma_is_bigram_freq bin p.lemmaBytes c.lemmaBytes = 0) →
      (∀ n ∈ next, lemma_is_bigram_freq bin c.lemmaBytes n.lemmaBytes = 0) →
      candScore logf bin prev next c = 0) ∧
    (∃ bi, bi < candidates.length ∧
      out.outLemma = (candidates.getD bi (syntheticCandidate [])).lemmaBytes ∧
      out.outPos = (candidates.getD bi (syntheticCandidate [])).pos ∧
      (∀ j, j < candidates.length →
        candScore logf bin prev next (candidates.getD j (syntheticCandidate [])) ≤
        candScore logf bin prev next (candidates.getD bi (syntheticCandidate []))) ∧
      (∀ j, j < bi →
        candScore logf bin prev next (candidates.getD j (syntheticCandidate [])) <
        candScore logf bin prev next (candidates.getD bi (syntheticCandidate []))) ∧
      (out.byBigram = true ↔
        0 < candScore logf bin prev next (candidates.getD bi (syntheticCandidate [])))) ∧
    ((∀ c ∈ candidates, candScore logf bin prev next c = 0) →
      out.byBigram = false ∧ out.confidence = 0 ∧
      out.outLemma = (candidates.headD (syntheticCandidate [])).lemmaBytes ∧
      out.outPos = (candidates.headD (syntheticCandidate [])).pos) ∧
    (prev = [] → next = [] →
      out.byBigram = false ∧ out.confidence = 0 ∧
      out.outLemma = (candidates.headD (syntheticCandidate [])).lemmaBytes) :=
  disambiguate_spec logf expf bin candidates prev next hc hw

/-- C4 witness: with weight `n ↦ n` on the good dictionary, a single
candidate `"b"` with previous-token candidate `"a"` (bigram frequency 5)
produces an output, and with no neighbors the output has `usedBigram`
false and confidence 0. -/
theorem claim_C4_witness :
    (lemma_is_disambiguate_bigram (fun n => (n : ℚ)) (fun _ => 1) goodDictBin
      [syntheticCandidate [0x62]] [syntheticCandidate [0x61]] []).isSome = true ∧
    (∃ out, lemma_is_disambiguate_bigram (fun n => (n : ℚ)) (fun _ => 1) goodDictBin
      [syntheticCandidate [0x62]] [] [] = some out ∧
      out.byBigram = false ∧ out.confidence = 0) := by
  constructor
  · obtain ⟨out, heq, -⟩ := claim_C4_disambiguation (fun n => (n : ℚ)) (fun _ => 1)
      goodDictBin [syntheticCandidate [0x62]] [syntheticCandidate [0x61]] []
      (by decide) (fun n hn => by show (0 : ℚ) < (n : ℚ); exact_mod_cast hn)
    rw [heq]
    rfl
  · obtain ⟨out, heq, -, -, -, hemp⟩ := claim_C4_disambiguation (fun n => (n : ℚ))
      (fun _ => 1) goodDictBin [syntheticCandidate [0x62]] [] []
      (by decide) (fun n hn => by show (0 : ℚ) < (n : ℚ); exact_mod_cast hn)
    obtain ⟨hb, hcf, -⟩ := hemp rfl rfl
    exact ⟨out, heq, hb, hcf⟩

/-- C5: for every dictionary whose word index is sorted by the byte-wise
comparator with length tie-break, the binary search returns -1 for any
absent key and returns the matching index for any present key (unique by
sortedness); likewise for the bigram index under the compound
`(word1, word2)` comparator; `lemma_is_bigram_freq` returns 0 whenever
the pair is not found, and with `bigramCount = 0` the search
short-circuits to not-found and the frequency is 0, with no error
outcome. -/
theorem claim_C5_binary_search (bin : LemmaIsBinary)
    (hsortW : wordIndexSorted bin) (hsortB : bigramIndexSorted bin) :
    (∀ w, (∀ i, i < bin.wordCount → wordKey bin i ≠ w) →
      lemma_is_find_word bin w = -1) ∧
    (∀ w k, k < bin.wordCount → wordKey bin k = w →
      lemma_is_find_word bin w = (k : Int)) ∧
    (∀ w1 w2, (∀ i, i < bin.bigramCount →
        ¬(bigramW1Key bin i = w1 ∧ bigramW2Key bin i = w2)) →
      lemma_is_find_bigram bin w1 w2 = -1 ∧ lemma_is_bigram_freq bin w1 w2 = 0) ∧
    (∀ w1 w2 k, k < bin.bigramCount → bigramW1Key bin k = w1 →
      bigramW2Key bin k = w2 → lemma_is_find_bigram bin w1 w2 = (k : Int)) ∧
    (bin.bigramCount = 0 → ∀ w1 w2,
      lemma_is_find_bigram bin w1 w2 = -1 ∧ lemma_is_bigram_freq bin w1 w2 = 0) := by
  obtain ⟨hw1, hw2⟩ := find_word_spec bin hsortW
  obtain ⟨hb1, hb2⟩ := find_bigram_spec bin hsortB
  refine ⟨hw1, hw2, ?_, hb2, ?_⟩
  · intro w1 w2 habs
    have hf := hb1 w1 w2 habs
    exact ⟨hf, by simp [lemma_is_bigram_freq, hf]⟩
  · intro hz w1 w2
    have hf : lemma_is_find_bigram bin w1 w2 = -1 := by
      simp [lemma_is_find_bigram, hz]
    exact ⟨hf, by simp [lemma_is_bigram_freq, hf]⟩

unseal lemma_is_find_loop in
/-- C5 witness: the good dictionary's two-word index and one-entry bigram
index are sorted; the present word `"b"` is found at index 1, the absent
word `"c"` is not found, and the stored bigram `("a","b")` is found at
index 0 with frequency 5, while `("b","a")` is absent with frequency 0. -/
theorem claim_C5_witness :
    lemma_is_find_word goodDictBin [0x62] = 1 ∧
    lemma_is_find_word goodDictBin [0x63] = -1 ∧
    lemma_is_find_bigram goodDictBin [0x61] [0x62] = 0 ∧
    lemma_is_bigram_freq goodDictBin [0x62] [0x61] = 0 := by
  have h := claim_C5_binary_search goodDictBin (by decide) (by decide)
  refine ⟨?_, ?_, ?_, ?_⟩
  · have := h.2.1 [0x62] 1 (by decide) (by decide)
    simpa using this
  · exact h.1 [0x62 + 1] (by decide)
  · have := h.2.2.2.1 [0x61] [0x62] 0 (by decide) (by decide) (by decide)
    simpa using this
  · exact (h.2.2.1 [0x62] [0x61] (by decide)).2

/-- C6: entry decoding is total and follows the version-dependent layout
exactly — version 1: `lemmaId = packed >> 4`, `pos = packed & 0xF`, zero
morphology; version 2: `lemmaId = packed >> 10`, `pos = packed & 0xF`,
`case = (packed >> 4) & 0x7`, `gender = (packed >> 7) & 0x3`,
`number = (packed >> 9) & 0x1` (stated via the equivalent `/`–`%`
arithmetic); and the part-of-speech table maps codes 0–9 to the ten tags
with every other code falling to the default `POS_NO` (noun). -/
theorem claim_C6_entry_codec (bin : LemmaIsBinary) (packed : Nat)
    (h : packed < 2 ^ 32) :
    (bin.version = 1 → lemma_is_unpack_entry bin packed =
      { lemmaIdx := packed / 16, posCode := packed % 16,
        caseCode := 0, genderCode := 0, numberCode := 0 }) ∧
    (bin.version = 2 → lemma_is_unpack_entry bin packed =
      { lemmaIdx := packed / 1024, posCode := packed % 16,
        caseCode := packed / 16 % 8, genderCode := packed / 128 % 4,
        numberCode := packed / 512 % 2 }) ∧
    (lemma_is_pos_from_code 0 = IcelandicPos.NO ∧
     lemma_is_pos_from_code 1 = IcelandicPos.SO ∧
     lemma_is_pos_from_code 2 = IcelandicPos.LO ∧
     lemma_is_pos_from_code 3 = IcelandicPos.AO ∧
     lemma_is_pos_from_code 4 = IcelandicPos.FS ∧
     lemma_is_pos_from_code 5 = IcelandicPos.FN ∧
     lemma_is_pos_from_code 6 = IcelandicPos.ST ∧
     lemma_is_pos_from_code 7 = IcelandicPos.TO ∧
     lemma_is_pos_from_code 8 = IcelandicPos.GR ∧
     lemma_is_pos_from_code 9 = IcelandicPos.UH) ∧
    (∀ code, 9 < code → lemma_is_pos_from_code code = IcelandicPos.NO) := by
  have hdiv : ∀ (n k : Nat), n >>> k = n / 2 ^ k := fun n k =>
    Nat.shiftRight_eq_div_pow n k
  have ha4 : ∀ n : Nat, n &&& 15 = n % 16 := fun n => by
    have := Nat.and_pow_two_sub_one_eq_mod n 4
    norm_num at this
    exact this
  have ha3 : ∀ n : Nat, n &&& 7 = n % 8 := fun n => by
    have := Nat.and_pow_two_sub_one_eq_mod n 3
    norm_num at this
    exact this
  have ha2 : ∀ n : Nat, n &&& 3 = n % 4 := fun n => by
    have := Nat.and_pow_two_sub_one_eq_mod n 2
    norm_num at this
    exact this
  have ha1 : ∀ n : Nat, n &&& 1 = n % 2 := fun n => Nat.and_one_is_mod n
  refine ⟨?_, ?_, ?_, ?_⟩
  · intro hv
    simp only [lemma_is_unpack_entry, if_pos hv, hdiv, ha4]
    norm_num
  · intro hv
    simp only [lemma_is_unpack_entry, if_neg (by omega : ¬bin.version = 1),
      hdiv, ha4, ha3, ha2, ha1]
    norm_num
  · exact ⟨rfl, rfl, rfl, rfl, rfl, rfl, rfl, rfl, rfl, rfl⟩
  · intro code hcode
    obtain ⟨d, rfl⟩ : ∃ d, code = d + 10 := ⟨code - 10, by omega⟩
    rfl

/-- C6 witness: decoding the packed value `0x35` under the good
dictionary's version-1 layout yields lemma id 3, pos code 5 and zero
morphology, and code 12 maps to the default tag. -/
theorem claim_C6_witness :
    lemma_is_unpack_entry goodDictBin 0x35 =
      { lemmaIdx := 3, posCode := 5, caseCode := 0, genderCode := 0, numberCode := 0 } ∧
    lemma_is_pos_from_code 12 = IcelandicPos.NO := by
  have h := claim_C6_entry_codec goodDictBin 0x35 (by norm_num)
  refine ⟨?_, h.2.2.2 12 (by norm_num)⟩
  rw [h.1 rfl]

unseal icelandic_tokenize_words in
/-- C7: every token the tokenizer emits starts with an alphabetic
codepoint, continues only through alphabetic codepoints or a joiner that
is immediately followed by an alphabetic codepoint (so no token ends in a
joiner); and the three specified examples hold: `"Þetta er gott"` →
`["Þetta","er","gott"]`, `"o'fáanlegt"` → one token spanning the
apostrophe, `"orð-"` → `["orð"]`. -/
theorem claim_C7_tokenizer :
    (∀ l : List Nat, ∀ t ∈ icelandic_tokenize_words l, goodTok t = true) ∧
    tokenizeString "Þetta er gott" = ["Þetta", "er", "gott"] ∧
    tokenizeString "o'fáanlegt" = ["o'fáanlegt"] ∧
    tokenizeString "orð-" = ["orð"] :=
  ⟨tokenize_good, by decide, by decide, by decide⟩

unseal icelandic_tokenize_words in
/-- C7 witness: the single token of `"ab."` is well-formed. -/
theorem claim_C7_witness : goodTok [0x61, 0x62] = true :=
  claim_C7_tokenizer.1 [0x61, 0x62, 0x2E] [0x61, 0x62] (by decide)

/-- C8: the conjunct-assembly loop equals the declarative form — drop
tokens whose surviving lemma set is empty, render a multi-lemma conjunct
parenthesized with `" | "` between lemmas and a single-lemma conjunct
bare, join conjuncts with `" & "` — and in particular zero surviving
conjuncts give the empty string, two single-lemma tokens `"hestur"`,
`"stór"` give exactly `"hestur & stór"`, and a sole token with lemmas
`"fara"`, `"far"` gives `"(fara | far)"`. -/
theorem claim_C8_query_builder :
    (∀ groups, icelandic_fts_query_build groups = specQueryString groups) ∧
    (∀ groups, groups.filter (fun g => !g.isEmpty) = [] →
      icelandic_fts_query_build groups = []) ∧
    icelandic_fts_query_build [["hestur".data], ["stór".data]] = "hestur & stór".data ∧
    icelandic_fts_query_build [["fara".data, "far".data]] = "(fara | far)".data ∧
    icelandic_fts_query_build [] = [] := by
  refine ⟨query_build_eq_spec, ?_, by decide, by decide, rfl⟩
  intro groups h
  rw [query_build_eq_spec]
  unfold specQueryString
  rw [h]
  rfl

/-- C8 witness: on a group list with an empty middle token, the loop and
the declarative rendering agree. -/
theorem claim_C8_witness :
    icelandic_fts_query_build [["a".data], [], ["b".data, "c".data]] =
    specQueryString [["a".data], [], ["b".data, "c".data]] :=
  claim_C8_query_builder.1 _

/-- C9: `isStopword` consults the contextual table first whenever that
table is non-empty — a hit tests the part of speech against the entry's
bitmask, a miss falls back to plain-list membership — and with an empty
contextual table it is exactly plain-list membership; moreover a token
whose disambiguation did not use bigram evidence is never filtered: its
surviving lemmas are exactly the first-seen deduplication of its
candidates' lemmas. -/
theorem claim_C9_stopword_filter :
    (∀ (contextual : List ContextualStopwordEntry) (stopwords : List (List Nat))
        (lm : List Nat) (pos : IcelandicPos) (e : ContextualStopwordEntry),
      contextual ≠ [] →
      contextual.find? (fun en => en.word == lm) = some e →
      lemma_is_contextual_stopword contextual stopwords lm pos =
        ((e.pos_mask &&& (1 <<< pos.toCode)) != 0)) ∧
    (∀ (contextual : List ContextualStopwordEntry) (stopwords : List (List Nat))
        (lm : List Nat) (pos : IcelandicPos),
      contextual ≠ [] →
      contextual.find? (fun en => en.word == lm) = none →
      lemma_is_contextual_stopword contextual stopwords lm pos =
        decide (lm ∈ stopwords)) ∧
    (∀ (stopwords : List (List Nat)) (lm : List Nat) (pos : IcelandicPos),
      lemma_is_contextual_stopword [] stopwords lm pos = decide (lm ∈ stopwords)) ∧
    (∀ (logf : Nat → ℚ) (expf : ℚ → ℚ) (contextual : List ContextualStopwordEntry)
        (stopwords : List (List Nat)) (bin : LemmaIsBinary)
        (cands prev next : List LemmaCandidate),
      (∀ out, lemma_is_disambiguate_bigram logf expf bin cands prev next = some out →
        out.byBigram = false) →
      tokenSurvivingLemmas logf expf contextual stopwords bin cands prev next =
      dedupFirstSeen (cands.map (fun c => c.lemmaBytes))) := by
  refine ⟨?_, ?_, ?_, tokenSurviving_no_filter⟩
  · intro ctx stop lm pos e hne hf
    have hlen : ¬ctx.length = 0 := by
      intro h0
      exact hne (List.length_eq_zero.mp h0)
    simp only [lemma_is_contextual_stopword, if_neg hlen, hf]
  · intro ctx stop lm pos hne hf
    have hlen : ¬ctx.length = 0 := by
      intro h0
      exact hne (List.length_eq_zero.mp h0)
    simp only [lemma_is_contextual_stopword, if_neg hlen, hf]
    exact stopword_simple_eq_mem stop lm
  · intro stop lm pos
    simp only [lemma_is_contextual_stopword, if_pos rfl]
    exact stopword_simple_eq_mem stop lm

/-- C9 witness: in a one-row contextual table masking only the verb tag
for lemma `"a"`, `"a"` is a stopword as a verb but not as a noun, and an
absent lemma falls back to the plain list. -/
theorem claim_C9_witness :
    lemma_is_contextual_stopword [⟨[0x61], 2⟩] [] [0x61] IcelandicPos.SO = true ∧
    lemma_is_contextual_stopword [⟨[0x61], 2⟩] [] [0x61] IcelandicPos.NO = false ∧
    lemma_is_contextual_stopword [⟨[0x61], 2⟩] [[0x62]] [0x62] IcelandicPos.NO = true := by
  refine ⟨?_, ?_, ?_⟩
  · rw [claim_C9_stopword_filter.1 [⟨[0x61], 2⟩] [] [0x61] IcelandicPos.SO ⟨[0x61], 2⟩
      (by simp) (by decide)]
    decide
  · rw [claim_C9_stopword_filter.1 [⟨[0x61], 2⟩] [] [0x61] IcelandicPos.NO ⟨[0x61], 2⟩
      (by simp) (by decide)]
    decide
  · rw [claim_C9_stopword_filter.2.1 [⟨[0x61], 2⟩] [[0x62]] [0x62] IcelandicPos.NO
      (by simp) (by decide)]
    decide

/-- C10: after a successful load the per-value views stored in the file
are dereferenced with no validation of their own; the bounds-instrumented
reads succeed exactly under the unstated precondition that the stored
values are in bounds — they always succeed when the lemma view lies
within the string pool and the entry range within the entry table, and
there are successfully loaded dictionaries (an out-of-pool lemma offset;
an entry range far past `entryCount`; a lemma id past `lemmaCount`) whose
reads fall outside the buffer. -/
theorem claim_C10_unchecked_views :
    (∀ (data : List Nat) (bin : LemmaIsBinary) (idx : Nat),
      lemma_is_load_binary data = .ok bin → lemmaViewInBounds bin idx →
      lemma_is_get_lemma_checked bin idx = some (lemma_is_get_lemma bin idx)) ∧
    (∀ (data : List Nat) (bin : LemmaIsBinary) (idx : Nat),
      lemma_is_load_binary data = .ok bin → entryRangeInBounds bin idx →
      ∃ ws, entryRangeReadsChecked bin idx = some ws) ∧
    (lemma_is_load_binary oobLemmaDictBytes = LoadResult.ok oobLemmaDictBin ∧
      lemma_is_get_lemma_checked oobLemmaDictBin 0 = none) ∧
    (lemma_is_load_binary rangeOverDictBytes = LoadResult.ok rangeOverDictBin ∧
      entryRangeReadsChecked rangeOverDictBin 0 = none) ∧
    lemma_is_get_lemma_checked goodDictBin 50 = none := by
  refine ⟨fun data bin idx hl hv => get_lemma_checked_of_inBounds data bin hl idx hv,
    fun data bin idx hl hv => entry_range_checked_of_inBounds data bin hl idx hv,
    ⟨by decide, by decide⟩, ⟨by decide, by decide⟩, by decide⟩

/-- C10 witness: on the good dictionary the only lemma's stored view is in
bounds and the checked read agrees with the unchecked one, and word 0's
entry range reads succeed. -/
theorem claim_C10_witness :
    lemma_is_get_lemma_checked goodDictBin 0 =
      some (lemma_is_get_lemma goodDictBin 0) ∧
    (∃ ws, entryRangeReadsChecked goodDictBin 0 = some ws) :=
  ⟨claim_C10_unchecked_views.1 goodDictBytes goodDictBin 0 (by decide) (by decide),
   claim_C10_unchecked_views.2.1 goodDictBytes goodDictBin 0 (by decide) (by decide)⟩
